import Mathlib

/-!
Shallow embedding of the change-tracking and translation-orchestration core of
the `open-doc-translator` repository, together with proofs settling the frozen
claims about it.

The embedded code lives in:
* `src/main/managers/ConfigManager.ts` (`FileManager`: status classification,
  filtering, file-tree construction, translation-state updates),
* `src/main/managers/GitManager.ts` (translation-state file read/write),
* `src/main/managers/LLMManager.ts` (single-file and batch translation),
* `src/main/services/TranslationService.ts` (batch orchestration and commit).

Conventions used throughout:
* JavaScript strings are Lean `String`s; `undefined`-able values are `Option`s.
* JavaScript exceptions are modelled with `Except String`: a function that can
  throw returns `Except String α`, and a `try/catch` is a `match` on it.
* External capabilities (the LLM HTTP call, `JSON.parse`/`JSON.stringify` of a
  notebook, the filesystem read/write outcome) are passed in as parameters,
  so every theorem quantifies over their behaviour.
* All definitions are computable and, where the source recursion allows,
  structurally recursive, so that concrete runs evaluate by `decide`/`rfl`.
-/

/-! ### JavaScript string primitives

`String.splitOn`, `String.toLower` and friends from the Lean library are not
kernel-reducible, so the JavaScript string operations used by the source are
modelled directly on the character list of the string.  Each definition states
which JavaScript operation it models.
-/

/-- Models JavaScript `s.split(sep)` for a one-character separator: splits at
every occurrence of `sep`, keeping empty pieces, and `"".split(sep)` is
`[""]`. -/
def jsSplit (sep : Char) (s : String) : List String :=
  (s.data.foldr
    (fun c acc =>
      match acc with
      | [] => [[c]]
      | g :: gs => if c = sep then [] :: g :: gs else (c :: g) :: gs)
    [[]]).map String.mk

/-- Models JavaScript `String.prototype.toLowerCase` on the ASCII range, which
is the range the source applies it to (file extensions, search text). -/
def jsCharLower (c : Char) : Char :=
  if 65 ≤ c.toNat ∧ c.toNat ≤ 90 then Char.ofNat (c.toNat + 32) else c

/-- Models JavaScript `s.toLowerCase()`. -/
def jsToLower (s : String) : String :=
  String.mk (s.data.map jsCharLower)

/-- ASCII whitespace, for modelling JavaScript `String.prototype.trim`. -/
def jsIsSpace (c : Char) : Bool :=
  c = ' ' ∨ c = '\t' ∨ c = '\n' ∨ c = '\r'

/-- Models JavaScript `s.trim()` (on the whitespace characters the source's
documents contain). -/
def jsTrim (s : String) : String :=
  String.mk (((s.data.dropWhile jsIsSpace).reverse.dropWhile jsIsSpace).reverse)

/-- Does `l` start with `p`?  Helper for `jsIncludes`. -/
def listStartsWith : List Char → List Char → Bool
  | [], _ => true
  | _ :: _, [] => false
  | a :: as, b :: bs => a = b && listStartsWith as bs

/-- Helper for `jsIncludes`: does `sub` occur in `l`? -/
def listIncludes (sub : List Char) : List Char → Bool
  | [] => listStartsWith sub []
  | c :: cs => listStartsWith sub (c :: cs) || listIncludes sub cs

/-- Models JavaScript `s.includes(sub)`: substring containment. -/
def jsIncludes (s sub : String) : Bool :=
  listIncludes sub.data s.data

/-! ### File status classification

`FileManager.determineFileStatus` (ConfigManager.ts, lines 366–376):

```ts
private determineFileStatus(sourceHash: string, recordedHash?: string): FileStatus {
  if (!recordedHash) { return FileStatus.UNTRANSLATED }
  if (sourceHash !== recordedHash) { return FileStatus.OUTDATED }
  return FileStatus.UP_TO_DATE
}
```

`recordedHash` has TypeScript type `string | undefined`; the absent case is
`Option.none`.  JavaScript `!recordedHash` is `true` both for `undefined` and
for the empty string, which the embedding reproduces exactly.
-/

/-- `FileStatus` from `src/main/types/index.ts`. -/
inductive FileStatus where
  | untranslated
  | outdated
  | upToDate
deriving DecidableEq, Repr

/-- Embedding of `FileManager.determineFileStatus`.  The `recorded = ""` test
is the empty-string half of the JavaScript truthiness test `!recordedHash`. -/
def determineFileStatus (sourceHash : String) : Option String → FileStatus
  | none => .untranslated
  | some recorded =>
    if recorded = "" then .untranslated
    else if sourceHash ≠ recorded then .outdated
    else .upToDate

/-- The classification exactly as the claim states it: `Untranslated` iff the
recorded hash is absent, `Outdated` iff present and different, `UpToDate` iff
present and equal. -/
def classifyClaim (sourceHash : String) : Option String → FileStatus
  | none => .untranslated
  | some recorded => if recorded ≠ sourceHash then .outdated else .upToDate

/-- The classification with the one amendment the code forces: a recorded hash
that is the *empty string* is treated like an absent one (JavaScript
truthiness), everything else as the claim states. -/
def classifyAmended (sourceHash : String) : Option String → FileStatus
  | none => .untranslated
  | some recorded =>
    if recorded = "" then .untranslated
    else if recorded ≠ sourceHash then .outdated
    else .upToDate

/-- Claim C1, counterexample: at `sourceHash = "a"` and a *present but empty*
`recordedHash`, the code returns `Untranslated` while the claim's rules demand
`Outdated` (present and different from `"a"`).  So the claim as stated is
false on the code. -/
theorem determineFileStatus_claim_cex :
    determineFileStatus "a" (some "") = FileStatus.untranslated ∧
    classifyClaim "a" (some "") = FileStatus.outdated ∧
    determineFileStatus "a" (some "") ≠ classifyClaim "a" (some "") := by
  decide

/-- Claim C1 (amended): the status classification is total and returns
`Untranslated` when the recorded hash is absent *or empty*, `Outdated` when it
is present, non-empty and differs from the source hash, and `UpToDate` when it
is present, non-empty and equal; hash equality is plain string equality. -/
theorem determineFileStatus_eq_amended (sourceHash : String)
    (recordedHash : Option String) :
    determineFileStatus sourceHash recordedHash =
      classifyAmended sourceHash recordedHash := by
  cases recordedHash with
  | none => rfl
  | some r =>
    by_cases h0 : r = ""
    · simp [determineFileStatus, classifyAmended, h0]
    · by_cases h1 : sourceHash = r
      · simp [determineFileStatus, classifyAmended, h0, h1]
      · have h2 : r ≠ sourceHash := fun h => h1 h.symm
        simp [determineFileStatus, classifyAmended, h0, h1, h2]

/-! ### The persisted translation state

`TranslationState` from `src/main/types/index.ts` is a JSON object keyed by
file path; it is modelled as a function from paths to optional entries.
-/

/-- One value of the `TranslationState` mapping. -/
structure StateEntry where
  source_hash : String
  last_translated_at : String
  translator_version : String
deriving DecidableEq, Repr

/-- The persisted mapping from file path to entry. -/
def TranslationState : Type := String → Option StateEntry

/-- The empty mapping (`{}`). -/
def emptyTranslationState : TranslationState := fun _ => none

/-! ### State-store I/O error behaviour

`GitManager.readTranslationState` (GitManager.ts, lines 454–465) wraps the
whole read (file read *and* `JSON.parse`) in `try/catch` and returns `{}` from
the `catch`; `GitManager.writeTranslationState` (lines 470–479) wraps the file
write and *rethrows* a wrapped error.  The outcome of the underlying
filesystem/parse step is passed in as an `Except`.
-/

/-- Embedding of `GitManager.readTranslationState`: `attempt` is the combined
outcome of `fs.readFile` + `JSON.parse`; any failure is absorbed and the empty
state is returned. -/
def readTranslationState (attempt : Except String TranslationState) :
    TranslationState :=
  match attempt with
  | .ok st => st
  | .error _ => emptyTranslationState

/-- Embedding of `GitManager.writeTranslationState`: `attempt` is the outcome
of `fs.writeFile`; a failure is rethrown wrapped in a new message. -/
def writeTranslationState (attempt : Except String Unit) : Except String Unit :=
  match attempt with
  | .ok _ => .ok ()
  | .error e => .error ("写入翻译状态文件失败: Error: " ++ e)

/-- Claim C5, counterexample: a failed *read* of the persisted mapping is not
propagated — the code absorbs the error and silently returns the empty state
mapping, exactly what the claim says does not happen. -/
theorem readTranslationState_cex :
    readTranslationState (Except.error "EIO: i/o error") =
      emptyTranslationState :=
  rfl

/-- Claim C5 (amended): a failed *write* of the persisted mapping is fatal for
the calling operation (the error is rethrown, wrapped), but a failed *read*
(missing file, unreadable file, or unparsable JSON) is absorbed and silently
treated as the empty state mapping. -/
theorem stateStore_io_failure (e : String) (st : TranslationState) :
    writeTranslationState (Except.error e) =
      Except.error ("写入翻译状态文件失败: Error: " ++ e) ∧
    readTranslationState (Except.error e) = emptyTranslationState ∧
    readTranslationState (Except.ok st) = st := by
  exact ⟨rfl, rfl, rfl⟩

/-! ### Single upsert of the translation state

`FileManager.updateTranslationState` (ConfigManager.ts, lines 562–576) reads
the current mapping, assigns a fresh entry
`{source_hash, last_translated_at: now, translator_version: '1.0'}` to the
path, and writes the mapping back.  `now` stands for
`new Date().toISOString()`.
-/

/-- Embedding of `FileManager.updateTranslationState` as the transformation it
applies to the stored mapping (read → assign → write, on the success path of
the underlying I/O). -/
def updateTranslationState (stored : TranslationState) (now : String)
    (filePath sourceHash : String) : TranslationState :=
  fun q =>
    if q = filePath then some ⟨sourceHash, now, "1.0"⟩ else stored q

/-- Claim C7: upserting `(p, h)` and then reading yields a mapping whose entry
for `p` records exactly hash `h`, timestamp `now` and version `"1.0"` —
independent of whatever entry was there before (wholesale overwrite, no
field-level merge) — and every other path is untouched. -/
theorem updateTranslationState_roundtrip (stored : TranslationState)
    (now p h : String) :
    (updateTranslationState stored now p h) p = some ⟨h, now, "1.0"⟩ ∧
    ∀ q, q ≠ p → (updateTranslationState stored now p h) q = stored q := by
  constructor
  · simp [updateTranslationState]
  · intro q hq
    simp [updateTranslationState, hq]

/-- Witness for claim C7 at a concrete store and paths. -/
theorem updateTranslationState_roundtrip_witness :
    (updateTranslationState emptyTranslationState "2025-01-01" "docs/a.md" "h1")
        "docs/a.md" = some ⟨"h1", "2025-01-01", "1.0"⟩ ∧
      (updateTranslationState emptyTranslationState "2025-01-01" "docs/a.md"
          "h1") "docs/b.md" = emptyTranslationState "docs/b.md" := by
  have h := updateTranslationState_roundtrip emptyTranslationState
    "2025-01-01" "docs/a.md" "h1"
  exact ⟨h.1, h.2 "docs/b.md" (by decide)⟩

/-! ### The batch translation scheduler

`LLMManager.translateBatch` (LLMManager.ts, lines 238–310):

```ts
async translateBatch(tasks, prompt, onProgress?): Promise<TranslationResult[]> {
  const results = []
  const concurrency = this.settings.concurrency
  let completedCount = 0
  for (let i = 0; i < tasks.length; i += concurrency) {
    const batch = tasks.slice(i, i + concurrency)
    const batchPromises = batch.map(async (task) => {
      try {
        if (onProgress) { onProgress({completed: completedCount, total, current: task.filePath}) }
        const result = await this.translateFile(...)
        completedCount++
        if (onProgress) { onProgress({completed: completedCount, total, current: task.filePath}) }
        return result
      } catch (error) {
        completedCount++
        if (onProgress) { onProgress({completed: completedCount, total, current: task.filePath}) }
        return { filePath: task.filePath, translatedContent: '', success: false, error: message }
      }
    })
    const batchResults = await Promise.all(batchPromises)
    results.push(...batchResults)
    if (i + concurrency < tasks.length) { await this.delay(1000) }
  }
  return results
}
```

Modelling decisions, stated once here:
* The translation call (`this.translateFile`) is an abstract
  `f : TranslationTask → Except String TranslationResult`; a thrown exception
  is the `error` case, with the thrown message as payload.
* Node's single-threaded event loop runs every closure of a wave
  synchronously up to its first `await`, so within one wave all the
  "about to start" `onProgress` calls fire first (each reading the same
  `completedCount`), and then the completions fire, each incrementing
  `completedCount` before reporting it.  The model fixes the within-wave
  completion order to input order; this is one admissible schedule, and
  `Promise.all` delivers the wave's results in input order regardless of the
  completion order.
* The callback log is the list of `ProgressEvent`s in firing order.  The
  `donePaths` field is ghost instrumentation recording which tasks had
  completed when the callback fired; it is what the temporal claim C4 talks
  about and influences no computed result.
* The inter-wave `delay(1000)` has no observable effect on results or on the
  callback log, so it has no counterpart in the model.
* With `concurrency = 0` the JavaScript `for` loop never advances, so the
  source diverges; the claims assume a positive concurrency and every theorem
  below carries that hypothesis.  (The model's chunking is given `length`
  steps of fuel, which is always enough fuel when the concurrency is
  positive.)
-/

/-- `TranslationTask` from `src/main/types/index.ts`. -/
structure TranslationTask where
  filePath : String
  content : String
  sourceHash : String
deriving DecidableEq, Repr

/-- `TranslationResult` from `src/main/types/index.ts`. -/
structure TranslationResult where
  filePath : String
  translatedContent : String
  success : Bool
  error : Option String
deriving DecidableEq, Repr

/-- One invocation of the `onProgress` callback, with the ghost `donePaths`
field recording the paths of the tasks that had completed when it fired. -/
structure ProgressEvent where
  completed : Nat
  total : Nat
  current : String
  donePaths : List String
deriving DecidableEq, Repr

/-- One wave's body for a single task: the `try { translateFile } catch`
around the translation call.  A thrown exception becomes
`{filePath, translatedContent: '', success: false, error: message}`. -/
def runTask (f : TranslationTask → Except String TranslationResult)
    (t : TranslationTask) : TranslationResult :=
  match f t with
  | .ok r => r
  | .error msg => ⟨t.filePath, "", false, some msg⟩

/-- `tasks.slice(i, i + concurrency)` chunking of the wave loop, fuelled by
the list length so that the recursion is structural.  For `0 < c` and
`xs.length ≤ fuel` this is exactly the sequence of slices the `for` loop
takes. -/
def chunksAux (c : Nat) : Nat → List α → List (List α)
  | 0, _ => []
  | _, [] => []
  | fuel + 1, x :: xs => (x :: xs.take (c - 1)) :: chunksAux c fuel (xs.drop (c - 1))

/-- The waves of a batch: `tasks` cut into pieces of size `c`. -/
def chunks (c : Nat) (xs : List α) : List (List α) :=
  chunksAux c xs.length xs

/-- Accumulated output of running (part of) a batch: the callback log, the
results, the final `completedCount`, and the ghost list of completed paths. -/
structure WaveOut where
  events : List ProgressEvent
  results : List TranslationResult
  completed : Nat
  donePaths : List String
deriving DecidableEq, Repr

/-- The completion phase of one wave: each task completes (in input order),
increments the shared counter, and fires the completion `onProgress`. -/
def runCompletions (f : TranslationTask → Except String TranslationResult)
    (total : Nat) : Nat → List String → List TranslationTask → WaveOut
  | c, done, [] => ⟨[], [], c, done⟩
  | c, done, t :: ts =>
    let r := runTask f t
    let d := done ++ [t.filePath]
    let rest := runCompletions f total (c + 1) d ts
    ⟨⟨c + 1, total, t.filePath, d⟩ :: rest.events, r :: rest.results,
      rest.completed, rest.donePaths⟩

/-- One wave: first every task's "about to start" `onProgress` fires (all
reading the wave's initial counter), then the completions run. -/
def runWave (f : TranslationTask → Except String TranslationResult)
    (total : Nat) (c : Nat) (done : List String)
    (wave : List TranslationTask) : WaveOut :=
  let fin := runCompletions f total c done wave
  ⟨wave.map (fun t => ⟨c, total, t.filePath, done⟩) ++ fin.events,
    fin.results, fin.completed, fin.donePaths⟩

/-- All waves in sequence; wave `n + 1` starts only after wave `n` has fully
completed. -/
def runWaves (f : TranslationTask → Except String TranslationResult)
    (total : Nat) : Nat → List String → List (List TranslationTask) →
    List ProgressEvent × List TranslationResult
  | _, _, [] => ([], [])
  | c, done, w :: ws =>
    let o := runWave f total c done w
    let rest := runWaves f total o.completed o.donePaths ws
    (o.events ++ rest.1, o.results ++ rest.2)

/-- Embedding of `LLMManager.translateBatch`: the callback log and the result
list of the whole batch. -/
def translateBatch (f : TranslationTask → Except String TranslationResult)
    (concurrency : Nat) (tasks : List TranslationTask) :
    List ProgressEvent × List TranslationResult :=
  runWaves f tasks.length 0 [] (chunks concurrency tasks)

/-! ### Committing a batch to the state store

`TranslationService.batchTranslateFiles` (TranslationService.ts, lines
410–479) runs `translateBatch` and then, for exactly the results with
`success == true`, collects `{filePath, sourceHash}` pairs (looking the task
up by path) and — only if that list is non-empty — calls
`FileManager.batchUpdateTranslationState` (ConfigManager.ts, lines 581–596),
which reads the mapping once, assigns every update in order, and writes the
mapping back once.
-/

/-- Embedding of the update loop of `FileManager.batchUpdateTranslationState`
as the transformation applied to the stored mapping. -/
def applyUpdates (now : String) (updates : List (String × String))
    (stored : TranslationState) : TranslationState :=
  updates.foldl
    (fun st u => fun q => if q = u.1 then some ⟨u.2, now, "1.0"⟩ else st q)
    stored

/-- The update-collection loop of `TranslationService.batchTranslateFiles`:
one `(filePath, sourceHash)` pair per successful result whose task is found
by path.  (`filterMap` mirrors the source's conditional `push` accumulation.) -/
def commitUpdates (tasks : List TranslationTask)
    (results : List TranslationResult) : List (String × String) :=
  results.filterMap fun r =>
    if r.success then
      (tasks.find? fun t => t.filePath = r.filePath).map
        fun t => (r.filePath, t.sourceHash)
    else none

/-- The commit phase of `TranslationService.batchTranslateFiles`: the new
stored mapping and whether a write of the state file happened at all
(the source guards the write with `if (updates.length > 0)`). -/
def batchCommit (tasks : List TranslationTask)
    (results : List TranslationResult) (now : String)
    (stored : TranslationState) : TranslationState × Bool :=
  let updates := commitUpdates tasks results
  if updates.isEmpty then (stored, false)
  else (applyUpdates now updates stored, true)

/-- Embedding of `TranslationService.batchTranslateFiles` (state-store
effects): run the batch, then commit the successful subset. -/
def batchTranslateFiles (f : TranslationTask → Except String TranslationResult)
    (concurrency : Nat) (tasks : List TranslationTask) (now : String)
    (stored : TranslationState) :
    List TranslationResult × TranslationState × Bool :=
  let results := (translateBatch f concurrency tasks).2
  let st := batchCommit tasks results now stored
  (results, st.1, st.2)

/-! ### Scheduler lemmas -/

theorem chunksAux_flatten (c : Nat) :
    ∀ (fuel : Nat) (xs : List α), xs.length ≤ fuel →
      (chunksAux c fuel xs).flatten = xs := by
  intro fuel
  induction fuel with
  | zero =>
    intro xs h
    have : xs = [] := List.length_eq_zero.mp (Nat.le_zero.mp h)
    simp [this, chunksAux]
  | succ fuel ih =>
    intro xs h
    cases xs with
    | nil => simp [chunksAux]
    | cons x l =>
      have hlen : (l.drop (c - 1)).length ≤ fuel := by
        have h1 : l.length ≤ fuel := by simpa using Nat.le_of_succ_le_succ h
        have h2 : (l.drop (c - 1)).length = l.length - (c - 1) :=
          List.length_drop _ _
        omega
      simp only [chunksAux, List.flatten_cons, ih _ hlen]
      rw [List.cons_append, List.take_append_drop]

theorem chunks_flatten (c : Nat) (xs : List α) : (chunks c xs).flatten = xs :=
  chunksAux_flatten c xs.length xs le_rfl

theorem runCompletions_results
    (f : TranslationTask → Except String TranslationResult) (total : Nat) :
    ∀ (ts : List TranslationTask) (c : Nat) (done : List String),
      (runCompletions f total c done ts).results = ts.map (runTask f) := by
  intro ts
  induction ts with
  | nil => intro c done; rfl
  | cons t ts ih => intro c done; simp [runCompletions, ih]

theorem runCompletions_events_completed
    (f : TranslationTask → Except String TranslationResult) (total : Nat) :
    ∀ (ts : List TranslationTask) (c : Nat) (done : List String),
      (runCompletions f total c done ts).events.map (·.completed) =
        List.range' (c + 1) ts.length := by
  intro ts
  induction ts with
  | nil => intro c done; rfl
  | cons t ts ih =>
    intro c done
    simp [runCompletions, ih, List.range'_succ]

theorem runCompletions_completed
    (f : TranslationTask → Except String TranslationResult) (total : Nat) :
    ∀ (ts : List TranslationTask) (c : Nat) (done : List String),
      (runCompletions f total c done ts).completed = c + ts.length := by
  intro ts
  induction ts with
  | nil => intro c done; simp [runCompletions]
  | cons t ts ih =>
    intro c done
    simp [runCompletions, ih]
    omega

theorem runWave_results
    (f : TranslationTask → Except String TranslationResult) (total : Nat)
    (c : Nat) (done : List String) (w : List TranslationTask) :
    (runWave f total c done w).results = w.map (runTask f) := by
  simp [runWave, runCompletions_results]

theorem runWave_completed
    (f : TranslationTask → Except String TranslationResult) (total : Nat)
    (c : Nat) (done : List String) (w : List TranslationTask) :
    (runWave f total c done w).completed = c + w.length := by
  simp [runWave, runCompletions_completed]

theorem runWave_events_completed
    (f : TranslationTask → Except String TranslationResult) (total : Nat)
    (c : Nat) (done : List String) (w : List TranslationTask) :
    (runWave f total c done w).events.map (·.completed) =
      List.replicate w.length c ++ List.range' (c + 1) w.length := by
  simp [runWave, runCompletions_events_completed]
  induction w with
  | nil => rfl
  | cons t ts ih => simpa [List.replicate_succ] using ih

theorem runWaves_results
    (f : TranslationTask → Except String TranslationResult) (total : Nat) :
    ∀ (ws : List (List TranslationTask)) (c : Nat) (done : List String),
      (runWaves f total c done ws).2 =
        (ws.map fun w => w.map (runTask f)).flatten := by
  intro ws
  induction ws with
  | nil => intro c done; rfl
  | cons w ws ih =>
    intro c done
    simp [runWaves, runWave_results, ih]

/-- The result list of a batch is exactly the per-task outcomes, in input
order (the chunking is invisible in the results). -/
theorem translateBatch_results_eq
    (f : TranslationTask → Except String TranslationResult)
    (c : Nat) (tasks : List TranslationTask) :
    (translateBatch f c tasks).2 = tasks.map (runTask f) := by
  simp only [translateBatch, runWaves_results]
  rw [← List.map_flatten, chunks_flatten]

/-- The counter values one wave reports: the wave's start events all report
the entry counter, the completions count it up; all values lie between `c` and
`c + k` and are non-decreasing. -/
theorem wave_block_pairwise (c k : Nat) :
    (List.replicate k c ++ List.range' (c + 1) k).Pairwise (· ≤ ·) := by
  rw [List.pairwise_append]
  refine ⟨?_, ?_, ?_⟩
  · simp
  · exact (List.pairwise_lt_range' _ _).imp Nat.le_of_lt
  · intro a ha b hb
    have ha' : a = c := List.eq_of_mem_replicate ha
    have hb' : c + 1 ≤ b := by
      rcases List.mem_range'.mp hb with ⟨i, _, rfl⟩
      omega
    omega

theorem wave_block_bounds (c k x : Nat)
    (hx : x ∈ List.replicate k c ++ List.range' (c + 1) k) :
    c ≤ x ∧ x ≤ c + k := by
  rcases List.mem_append.mp hx with h | h
  · have := List.eq_of_mem_replicate h
    omega
  · rcases List.mem_range'.mp h with ⟨i, hi, rfl⟩
    omega

/-- Monotonicity of the reported counter across the whole run. -/
theorem runWaves_events_mono
    (f : TranslationTask → Except String TranslationResult) (total : Nat) :
    ∀ (ws : List (List TranslationTask)) (c : Nat) (done : List String),
      ((runWaves f total c done ws).1.map (·.completed)).Pairwise (· ≤ ·) ∧
      ∀ x ∈ (runWaves f total c done ws).1.map (·.completed), c ≤ x := by
  intro ws
  induction ws with
  | nil => intro c done; simp [runWaves]
  | cons w ws ih =>
    intro c done
    have hblock := runWave_events_completed f total c done w
    have hcompleted := runWave_completed f total c done w
    constructor
    · simp only [runWaves, List.map_append]
      rw [List.pairwise_append]
      refine ⟨?_, ?_, ?_⟩
      · rw [hblock]; exact wave_block_pairwise c w.length
      · exact (ih _ _).1
      · intro a ha b hb
        have ha2 : a ≤ c + w.length := by
          rw [hblock] at ha
          exact (wave_block_bounds c w.length a ha).2
        have hb2 : (runWave f total c done w).completed ≤ b :=
          (ih _ _).2 b hb
        rw [hcompleted] at hb2
        omega
    · intro x hx
      simp only [runWaves, List.map_append, List.mem_append] at hx
      rcases hx with h | h
      · rw [hblock] at h
        exact (wave_block_bounds c w.length x h).1
      · have := (ih _ _).2 x h
        rw [hcompleted] at this
        omega

/-- Every task in the completion phase gets a completion event: the event
names the task, and at the moment it fires the task's path is among the
completed ones. -/
theorem runCompletions_event_for
    (f : TranslationTask → Except String TranslationResult) (total : Nat) :
    ∀ (ts : List TranslationTask) (c : Nat) (done : List String),
      ∀ t ∈ ts, ∃ e ∈ (runCompletions f total c done ts).events,
        e.current = t.filePath ∧ t.filePath ∈ e.donePaths := by
  intro ts
  induction ts with
  | nil => intro c done t ht; cases ht
  | cons u ts ih =>
    intro c done t ht
    rcases List.mem_cons.mp ht with rfl | ht'
    · exact ⟨⟨c + 1, total, t.filePath, done ++ [t.filePath]⟩,
        List.mem_cons_self _ _, rfl, by simp⟩
    · rcases ih (c + 1) (done ++ [u.filePath]) t ht' with ⟨e, he, hcur, hdone⟩
      exact ⟨e, List.mem_cons_of_mem _ he, hcur, hdone⟩

theorem runWaves_event_for
    (f : TranslationTask → Except String TranslationResult) (total : Nat) :
    ∀ (ws : List (List TranslationTask)) (c : Nat) (done : List String),
      ∀ w ∈ ws, ∀ t ∈ w, ∃ e ∈ (runWaves f total c done ws).1,
        e.current = t.filePath ∧ t.filePath ∈ e.donePaths := by
  intro ws
  induction ws with
  | nil => intro c done w hw; cases hw
  | cons w0 ws ih =>
    intro c done w hw t ht
    rcases List.mem_cons.mp hw with rfl | hw'
    · rcases runCompletions_event_for f total w c done t ht with ⟨e, he, h1, h2⟩
      refine ⟨e, ?_, h1, h2⟩
      simp only [runWaves, List.mem_append]
      left
      simp only [runWave, List.mem_append]
      right
      exact he
    · rcases ih (runWave f total c done w0).completed
        (runWave f total c done w0).donePaths w hw' t ht with ⟨e, he, h1, h2⟩
      refine ⟨e, ?_, h1, h2⟩
      simp only [runWaves, List.mem_append]
      right
      exact he

/-- Claim C2: for every task list (and the positive concurrency the source
requires), `translateBatch` returns exactly one result per input task, in
input order — so the results map 1:1 to the input paths — and a task on which
the translation call throws yields, at that task's position, a result with
`success := false` carrying the thrown message, while every other task's
result is its own `runTask` outcome, unaffected by the failure (no sibling
cancellation, no aborted waves). -/
theorem translateBatch_results_spec
    (f : TranslationTask → Except String TranslationResult)
    (c : Nat) (tasks : List TranslationTask) (hc : 0 < c)
    (hf : ∀ t r, f t = .ok r → r.filePath = t.filePath) :
    (translateBatch f c tasks).2 = tasks.map (runTask f) ∧
    (translateBatch f c tasks).2.length = tasks.length ∧
    (translateBatch f c tasks).2.map (·.filePath) = tasks.map (·.filePath) ∧
    ∀ t ∈ tasks, ∀ msg, f t = .error msg →
      runTask f t = ⟨t.filePath, "", false, some msg⟩ := by
  have hres := translateBatch_results_eq f c tasks
  have hpath : ∀ t, (runTask f t).filePath = t.filePath := by
    intro t
    unfold runTask
    cases hft : f t with
    | ok r => exact hf t r hft
    | error msg => rfl
  refine ⟨hres, by simp [hres], ?_, ?_⟩
  · rw [hres, List.map_map]
    exact List.map_congr_left fun t _ => hpath t
  · intro t _ msg hmsg
    unfold runTask
    rw [hmsg]

/-- A concrete translation function for the witnesses: five tasks with
concurrency 2, the third task throws. -/
def exMixedTranslate : TranslationTask → Except String TranslationResult :=
  fun t =>
    if t.filePath = "3" then .error "boom"
    else .ok ⟨t.filePath, "T", true, none⟩

/-- Five concrete tasks, as in the spec's scheduler test. -/
def exTasks5 : List TranslationTask :=
  [⟨"1", "c1", "h1"⟩, ⟨"2", "c2", "h2"⟩, ⟨"3", "c3", "h3"⟩,
   ⟨"4", "c4", "h4"⟩, ⟨"5", "c5", "h5"⟩]

/-- Witness for claim C2: 5 tasks, concurrency 2, task 3 throws. -/
theorem translateBatch_results_spec_witness :
    (translateBatch exMixedTranslate 2 exTasks5).2.length = exTasks5.length ∧
    (translateBatch exMixedTranslate 2 exTasks5).2.map (·.filePath) =
      exTasks5.map (·.filePath) ∧
    runTask exMixedTranslate ⟨"3", "c3", "h3"⟩ = ⟨"3", "", false, some "boom"⟩ := by
  have hf : ∀ t r, exMixedTranslate t = .ok r → r.filePath = t.filePath := by
    intro t r h
    by_cases h3 : t.filePath = "3"
    · simp [exMixedTranslate, h3] at h
    · simp only [exMixedTranslate, h3, if_false, Except.ok.injEq] at h
      rw [← h]
  have main := translateBatch_results_spec exMixedTranslate 2 exTasks5
    (by decide) hf
  exact ⟨main.2.1, main.2.2.1,
    main.2.2.2 ⟨"3", "c3", "h3"⟩ (by decide) "boom" rfl⟩

/-- The very first callback of a non-empty batch: it fires *before* any task
has completed (`donePaths = []`, `completed = 0`) and names the first task —
which is about to start, not just completed. -/
theorem translateBatch_first_event
    (f : TranslationTask → Except String TranslationResult)
    (c : Nat) (t : TranslationTask) (ts : List TranslationTask) :
    (translateBatch f c (t :: ts)).1.head? =
      some ⟨0, (t :: ts).length, t.filePath, []⟩ := by
  simp [translateBatch, chunks, chunksAux, runWaves, runWave]

/-- The progress claim exactly as stated: at least one callback per task after
its completion, a non-decreasing completed counter, and *every* callback
naming an already-completed task. -/
def ProgressClaim (events : List ProgressEvent)
    (tasks : List TranslationTask) : Prop :=
  (∀ t ∈ tasks, ∃ e ∈ events,
      e.current = t.filePath ∧ t.filePath ∈ e.donePaths) ∧
  (events.map (·.completed)).Pairwise (· ≤ ·) ∧
  ∀ e ∈ events, e.current ∈ e.donePaths

/-- A translation function that always succeeds, for concrete runs. -/
def exOkTranslate : TranslationTask → Except String TranslationResult :=
  fun t => .ok ⟨t.filePath, "T", true, none⟩

/-- Claim C4, counterexample: already with a single task that completes
successfully, the claim as stated fails — the source fires an `onProgress`
*before* the task starts (`completed = 0`, `current` = the task's path, no
task completed yet), so not every callback's `currentPath` identifies a task
that has just completed. -/
theorem translateBatch_progress_cex :
    ¬ ProgressClaim (translateBatch exOkTranslate 1 [⟨"a.md", "x", "h"⟩]).1
        [⟨"a.md", "x", "h"⟩] := by
  unfold ProgressClaim
  decide

/-- Claim C4 (amended): during a batch run the callback fires at least once
per task after that task's completion (success or failure) with the task's
path as `currentPath`, and the reported completed counter is monotonically
non-decreasing over the whole callback sequence; however the callback *also*
fires once before each task starts — in particular the first callback of a
non-empty batch reports `completed = 0` and names the first task before
anything has completed — so `currentPath` does not always identify a task
that has just completed. -/
theorem translateBatch_progress_spec
    (f : TranslationTask → Except String TranslationResult)
    (c : Nat) (tasks : List TranslationTask) (hc : 0 < c) :
    (∀ t ∈ tasks, ∃ e ∈ (translateBatch f c tasks).1,
        e.current = t.filePath ∧ t.filePath ∈ e.donePaths) ∧
    ((translateBatch f c tasks).1.map (·.completed)).Pairwise (· ≤ ·) ∧
    (∀ h : tasks ≠ [], (translateBatch f c tasks).1.head? =
        some ⟨0, tasks.length, (tasks.head h).filePath, []⟩) := by
  refine ⟨?_, (runWaves_events_mono f tasks.length (chunks c tasks) 0 []).1, ?_⟩
  · intro t ht
    have ht' : t ∈ (chunks c tasks).flatten := by
      rw [chunks_flatten]; exact ht
    rcases List.mem_flatten.mp ht' with ⟨w, hw, htw⟩
    exact runWaves_event_for f tasks.length (chunks c tasks) 0 [] w hw t htw
  · intro h
    cases tasks with
    | nil => exact absurd rfl h
    | cons t ts => exact translateBatch_first_event f c t ts

/-- Witness for claim C4's amended theorem: the concrete 5-task run with
concurrency 2; task 3 (which throws) still gets a completion callback. -/
theorem translateBatch_progress_spec_witness :
    (∃ e ∈ (translateBatch exMixedTranslate 2 exTasks5).1,
      e.current = "3" ∧ "3" ∈ e.donePaths) ∧
    ((translateBatch exMixedTranslate 2 exTasks5).1.map (·.completed)).Pairwise
      (· ≤ ·) := by
  have main := translateBatch_progress_spec exMixedTranslate 2 exTasks5
    (by decide)
  exact ⟨main.1 ⟨"3", "c3", "h3"⟩ (by decide), main.2.1⟩

/-! ### Commit lemmas -/

/-- Under the hypothesis that the translation call preserves the task's path
(which the source's `translateFile` does on every branch), so does the
caught-exception wrapper. -/
theorem runTask_filePath
    (f : TranslationTask → Except String TranslationResult)
    (hf : ∀ t r, f t = .ok r → r.filePath = t.filePath)
    (t : TranslationTask) : (runTask f t).filePath = t.filePath := by
  unfold runTask
  cases hft : f t with
  | ok r => exact hf t r hft
  | error msg => rfl

theorem find?_filePath_self (tasks : List TranslationTask)
    (hnd : (tasks.map (·.filePath)).Nodup) :
    ∀ t ∈ tasks, tasks.find? (fun t' => t'.filePath = t.filePath) = some t := by
  induction tasks with
  | nil => intro t ht; cases ht
  | cons a rest ih =>
    intro t ht
    rcases List.mem_cons.mp ht with rfl | ht'
    · simp
    · have hmem : t.filePath ∈ rest.map (·.filePath) :=
        List.mem_map_of_mem _ ht'
      have hna : a.filePath ∉ rest.map (·.filePath) :=
        (List.nodup_cons.mp hnd).1
      have hne : a.filePath ≠ t.filePath := by
        intro heq
        rw [heq] at hna
        exact hna hmem
      rw [List.find?_cons_of_neg _ (by simpa using hne)]
      exact ih (List.nodup_cons.mp hnd).2 t ht'

theorem applyUpdates_not_mem (now : String) :
    ∀ (updates : List (String × String)) (stored : TranslationState)
      (p : String), (∀ u ∈ updates, u.1 ≠ p) →
      applyUpdates now updates stored p = stored p := by
  intro updates
  induction updates with
  | nil => intro stored p _; rfl
  | cons u rest ih =>
    intro stored p hp
    have step : applyUpdates now (u :: rest) stored =
        applyUpdates now rest
          (fun q => if q = u.1 then some ⟨u.2, now, "1.0"⟩ else stored q) := rfl
    rw [step, ih _ p (fun v hv => hp v (List.mem_cons_of_mem _ hv))]
    have : p ≠ u.1 := fun h => hp u (List.mem_cons_self _ _) h.symm
    simp [this]

theorem applyUpdates_mem (now : String) :
    ∀ (updates : List (String × String)) (stored : TranslationState)
      (p h : String), (updates.map Prod.fst).Nodup → (p, h) ∈ updates →
      applyUpdates now updates stored p = some ⟨h, now, "1.0"⟩ := by
  intro updates
  induction updates with
  | nil => intro stored p h _ hmem; cases hmem
  | cons u rest ih =>
    intro stored p h hnd hmem
    have step : applyUpdates now (u :: rest) stored =
        applyUpdates now rest
          (fun q => if q = u.1 then some ⟨u.2, now, "1.0"⟩ else stored q) := rfl
    rcases List.mem_cons.mp hmem with rfl | hmem'
    · have hrest : ∀ v ∈ rest, v.1 ≠ p := by
        intro v hv hvp
        have : p ∈ rest.map Prod.fst := by
          rw [← hvp]; exact List.mem_map_of_mem _ hv
        exact (List.nodup_cons.mp hnd).1 this
      rw [step, applyUpdates_not_mem now rest _ p hrest]
      simp
    · exact step ▸ ih _ p h (List.nodup_cons.mp hnd).2 hmem'

theorem filterMap_guard (p : α → Bool) (g : α → β) :
    ∀ l : List α,
      l.filterMap (fun a => if p a then some (g a) else none) =
        (l.filter p).map g := by
  intro l
  induction l with
  | nil => rfl
  | cons a l ih =>
    by_cases h : p a <;> simp [List.filterMap_cons, List.filter_cons, h, ih]

/-- What the commit loop collects when fed the batch's own results: exactly
one `(path, sourceHash)` pair per *successful* task, in task order. -/
theorem commitUpdates_map_runTask
    (f : TranslationTask → Except String TranslationResult)
    (tasks : List TranslationTask)
    (hf : ∀ t r, f t = .ok r → r.filePath = t.filePath)
    (hnd : (tasks.map (·.filePath)).Nodup) :
    commitUpdates tasks (tasks.map (runTask f)) =
      (tasks.filter fun t => (runTask f t).success).map
        fun t => (t.filePath, t.sourceHash) := by
  unfold commitUpdates
  rw [List.filterMap_map]
  have hcong : ∀ t ∈ tasks,
      ((fun r => if r.success then
          (tasks.find? fun t' => t'.filePath = r.filePath).map
            fun t' => (r.filePath, t'.sourceHash)
        else none) ∘ runTask f) t =
      (fun t => if (runTask f t).success then
          some (t.filePath, t.sourceHash) else none) t := by
    intro t ht
    simp only [Function.comp_apply]
    by_cases hs : (runTask f t).success
    · rw [if_pos hs, if_pos hs, runTask_filePath f hf t,
        find?_filePath_self tasks hnd t ht]
      rfl
    · rw [if_neg hs, if_neg hs]
  rw [List.filterMap_congr hcong]
  exact filterMap_guard _ _ tasks

/-- Claim C3: after `batchTranslateFiles`, exactly the tasks whose result
succeeded are committed to the state store — each such path maps to a fresh
entry with its source hash — while every failed task's path, and every path
not in the batch, keeps exactly its prior entry (or absence), so a failed
file still resolves as `Untranslated`/`Outdated` on the next pass. -/
theorem batchTranslateFiles_commit_spec
    (f : TranslationTask → Except String TranslationResult)
    (c : Nat) (tasks : List TranslationTask) (now : String)
    (stored : TranslationState) (hc : 0 < c)
    (hf : ∀ t r, f t = .ok r → r.filePath = t.filePath)
    (hnd : (tasks.map (·.filePath)).Nodup) :
    (∀ t ∈ tasks, (runTask f t).success = true →
      (batchTranslateFiles f c tasks now stored).2.1 t.filePath =
        some ⟨t.sourceHash, now, "1.0"⟩) ∧
    (∀ t ∈ tasks, (runTask f t).success = false →
      (batchTranslateFiles f c tasks now stored).2.1 t.filePath =
        stored t.filePath) ∧
    (∀ p, (∀ t ∈ tasks, t.filePath ≠ p) →
      (batchTranslateFiles f c tasks now stored).2.1 p = stored p) := by
  have hres : (translateBatch f c tasks).2 = tasks.map (runTask f) :=
    translateBatch_results_eq f c tasks
  have hupd : commitUpdates tasks (translateBatch f c tasks).2 =
      (tasks.filter fun t => (runTask f t).success).map
        fun t => (t.filePath, t.sourceHash) := by
    rw [hres]
    exact commitUpdates_map_runTask f tasks hf hnd
  have hkeys : ((tasks.filter fun t => (runTask f t).success).map
      (fun t => (t.filePath, t.sourceHash))).map Prod.fst =
      (tasks.filter fun t => (runTask f t).success).map (·.filePath) := by
    rw [List.map_map]; rfl
  have hkeysnd : ((tasks.filter fun t => (runTask f t).success).map
      (fun t => (t.filePath, t.sourceHash))).map Prod.fst |>.Nodup := by
    rw [hkeys]
    exact hnd.sublist (List.Sublist.map _ (List.filter_sublist tasks))
  have hmem_keys : ∀ u ∈ (tasks.filter fun t => (runTask f t).success).map
      (fun t => (t.filePath, t.sourceHash)),
      ∃ t' ∈ tasks, (runTask f t').success = true ∧
        u = (t'.filePath, t'.sourceHash) := by
    intro u hu
    rcases List.mem_map.mp hu with ⟨t', ht', rfl⟩
    rcases List.mem_filter.mp ht' with ⟨ht'mem, ht'succ⟩
    exact ⟨t', ht'mem, ht'succ, rfl⟩
  have hinj := List.inj_on_of_nodup_map hnd
  unfold batchTranslateFiles batchCommit
  simp only [hupd]
  refine ⟨?_, ?_, ?_⟩
  · intro t ht hsucc
    have hmem : (t.filePath, t.sourceHash) ∈
        (tasks.filter fun t => (runTask f t).success).map
          (fun t => (t.filePath, t.sourceHash)) :=
      List.mem_map_of_mem _ (List.mem_filter.mpr ⟨ht, hsucc⟩)
    have hne : ¬ ((tasks.filter fun t => (runTask f t).success).map
        (fun t => (t.filePath, t.sourceHash))).isEmpty := by
      intro hemp
      rw [List.isEmpty_iff] at hemp
      rw [hemp] at hmem
      cases hmem
    simp only [hne, if_false, Bool.false_eq_true, if_neg hne]
    exact applyUpdates_mem now _ stored t.filePath t.sourceHash hkeysnd hmem
  · intro t ht hfail
    by_cases hemp : ((tasks.filter fun t => (runTask f t).success).map
        (fun t => (t.filePath, t.sourceHash))).isEmpty
    · simp [hemp]
    · simp only [hemp, if_neg hemp]
      apply applyUpdates_not_mem
      intro u hu hup
      rcases hmem_keys u hu with ⟨t', ht', ht'succ, rfl⟩
      have : t' = t := hinj ht' ht hup
      rw [this] at ht'succ
      rw [ht'succ] at hfail
      cases hfail
  · intro p hp
    by_cases hemp : ((tasks.filter fun t => (runTask f t).success).map
        (fun t => (t.filePath, t.sourceHash))).isEmpty
    · simp [hemp]
    · simp only [hemp, if_neg hemp]
      apply applyUpdates_not_mem
      intro u hu hup
      rcases hmem_keys u hu with ⟨t', ht', _, rfl⟩
      exact hp t' ht' hup

/-- Two concrete tasks; the second one's translation throws. -/
def exTasks2 : List TranslationTask :=
  [⟨"a.md", "A", "h1"⟩, ⟨"b.md", "B", "h2"⟩]

/-- Concrete translation function failing exactly on `b.md`. -/
def exMixedTranslate2 : TranslationTask → Except String TranslationResult :=
  fun t =>
    if t.filePath = "b.md" then .error "boom"
    else .ok ⟨t.filePath, "T", true, none⟩

/-- Witness for claim C3: after the concrete mixed batch, `a.md` is committed
with its source hash, while `b.md` (failed) and `c.md` (absent) keep their
prior (absent) entries. -/
theorem batchTranslateFiles_commit_spec_witness :
    (batchTranslateFiles exMixedTranslate2 1 exTasks2 "T0"
        emptyTranslationState).2.1 "a.md" = some ⟨"h1", "T0", "1.0"⟩ ∧
    (batchTranslateFiles exMixedTranslate2 1 exTasks2 "T0"
        emptyTranslationState).2.1 "b.md" = emptyTranslationState "b.md" ∧
    (batchTranslateFiles exMixedTranslate2 1 exTasks2 "T0"
        emptyTranslationState).2.1 "c.md" = emptyTranslationState "c.md" := by
  have hf : ∀ t r, exMixedTranslate2 t = .ok r → r.filePath = t.filePath := by
    intro t r h
    by_cases hb : t.filePath = "b.md"
    · simp [exMixedTranslate2, hb] at h
    · simp only [exMixedTranslate2, hb, if_false, Except.ok.injEq] at h
      rw [← h]
  have main := batchTranslateFiles_commit_spec exMixedTranslate2 1 exTasks2
    "T0" emptyTranslationState (by decide) hf (by decide)
  refine ⟨?_, ?_, ?_⟩
  · have := main.1 ⟨"a.md", "A", "h1"⟩ (by decide) (by decide)
    exact this
  · have := main.2.1 ⟨"b.md", "B", "h2"⟩ (by decide) (by decide)
    exact this
  · exact main.2.2 "c.md" (by decide)

/-- If no result succeeded, the commit loop collects nothing. -/
theorem commitUpdates_all_failed (tasks : List TranslationTask)
    (results : List TranslationResult)
    (hfail : ∀ r ∈ results, r.success = false) :
    commitUpdates tasks results = [] := by
  unfold commitUpdates
  rw [List.filterMap_eq_nil_iff]
  intro r hr
  simp [hfail r hr]

/-- Claim C10: if no task of the batch produced a successful result (in
particular if the task list is empty), the batch performs no write of the
persisted translation-state file at all — the write flag is `false` and the
stored mapping is returned untouched. -/
theorem batchTranslateFiles_no_success_no_write
    (f : TranslationTask → Except String TranslationResult)
    (c : Nat) (tasks : List TranslationTask) (now : String)
    (stored : TranslationState) (hc : 0 < c)
    (hfail : ∀ r ∈ (translateBatch f c tasks).2, r.success = false) :
    batchTranslateFiles f c tasks now stored =
      ((translateBatch f c tasks).2, stored, false) := by
  simp only [batchTranslateFiles, batchCommit,
    commitUpdates_all_failed tasks _ hfail, List.isEmpty_nil, if_true]

/-- A translation function that always throws. -/
def exFailTranslate : TranslationTask → Except String TranslationResult :=
  fun _ => .error "network down"

/-- Witness for claim C10: with every task failing, the state mapping and the
write flag come back untouched. -/
theorem batchTranslateFiles_no_success_no_write_witness :
    batchTranslateFiles exFailTranslate 1 exTasks2 "T0" emptyTranslationState =
      ((translateBatch exFailTranslate 1 exTasks2).2,
        emptyTranslationState, false) :=
  batchTranslateFiles_no_success_no_write exFailTranslate 1 exTasks2 "T0"
    emptyTranslationState (by decide) (by decide)

/-! ### The translation unit adapter

`LLMManager.translateFile` (LLMManager.ts, lines 56–79) dispatches on the
lower-cased extension after the last `.` of the path: `.ipynb` files go to
`translateJupyterNotebook` (lines 124–233), everything else to
`translateMarkdown` (lines 84–119); an exception from either is caught and
converted into a `success: false` result carrying the message.

`translateJupyterNotebook` parses the content with `JSON.parse` — a parse
failure is caught by its own `try/catch`, which *rethrows*
`'翻译Jupyter Notebook文件失败: ...'`; there is no fallback.  On a successful
parse it collects the non-blank markdown cells, translates each one (a
per-cell failure keeps the cell's original text), writes the translations
back, and serialises the notebook.

External capabilities:
* `g` — one LLM call on one text unit, returning the (possibly empty) text
  the source extracts with `response.data.choices[0]?.message?.content`;
* `parse : String → Except String Notebook` — `JSON.parse` of the content;
* `stringify : Notebook → String` — `JSON.stringify(translatedNotebook, null, 2)`.
-/

/-- A Jupyter cell's `source` field: a string or an array of strings. -/
inductive CellSource where
  | str (s : String)
  | arr (l : List String)
deriving DecidableEq, Repr

/-- One notebook cell (the two fields the source reads). -/
structure NotebookCell where
  cell_type : String
  source : CellSource
deriving DecidableEq, Repr

/-- A parsed notebook (the one field the source touches). -/
structure Notebook where
  cells : List NotebookCell
deriving DecidableEq, Repr

/-- The JavaScript test `cell.source && cell.source.length > 0`: an empty
string is falsy, an empty array has length 0. -/
def sourceNonempty : CellSource → Bool
  | .str s => s ≠ ""
  | .arr l => l ≠ []

/-- `Array.isArray(cell.source)`. -/
def sourceIsArray : CellSource → Bool
  | .str _ => false
  | .arr _ => true

/-- `isArray ? cell.source.join('') : cell.source`. -/
def sourceText : CellSource → String
  | .str s => s
  | .arr l => String.mk (l.map String.data).flatten

/-- One entry of the source's `markdownCells` queue. -/
structure SegTask where
  index : Nat
  content : String
  isArray : Bool
deriving DecidableEq, Repr

/-- One entry of the source's `translationResults`. -/
structure SegResult where
  index : Nat
  translatedContent : String
  isArray : Bool
  success : Bool
deriving DecidableEq, Repr

/-- The collection loop over `translatedNotebook.cells`: markdown cells with
a truthy, non-blank source, in document order, remembering index and array
shape. -/
def collectCells (cells : List NotebookCell) : List SegTask :=
  cells.enum.filterMap fun ic =>
    if ic.2.cell_type = "markdown" ∧ sourceNonempty ic.2.source then
      if jsTrim (sourceText ic.2.source) ≠ "" then
        some ⟨ic.1, sourceText ic.2.source, sourceIsArray ic.2.source⟩
      else none
    else none

/-- One cell's translation attempt: the per-cell `try/catch`.  On success the
extracted text is used unless it is empty (`|| cellData.content`); on failure
the original text is kept and `success` is `false`. -/
def runSeg (g : String → Except String String) (cd : SegTask) : SegResult :=
  match g cd.content with
  | .ok tr => ⟨cd.index, if tr = "" then cd.content else tr, cd.isArray, true⟩
  | .error _ => ⟨cd.index, cd.content, cd.isArray, false⟩

/-- Write one translated cell back:
`cells[index].source = isArray ? [translated] : translated`. -/
def setCellSource (cells : List NotebookCell) (i : Nat) (src : CellSource) :
    List NotebookCell :=
  match cells.get? i with
  | none => cells
  | some c => cells.set i ⟨c.cell_type, src⟩

/-- The write-back loop over `translationResults`. -/
def applySegResults (cells : List NotebookCell) (rs : List SegResult) :
    List NotebookCell :=
  rs.foldl
    (fun cs r =>
      setCellSource cs r.index
        (if r.isArray then .arr [r.translatedContent] else .str r.translatedContent))
    cells

/-- Embedding of `LLMManager.translateJupyterNotebook`; the `Except` is the
function's thrown exception. -/
def translateJupyterNotebook (g : String → Except String String)
    (stringify : Notebook → String) (filePath : String)
    (parsed : Except String Notebook) : Except String TranslationResult :=
  match parsed with
  | .error e => .error ("翻译Jupyter Notebook文件失败: " ++ e)
  | .ok nb =>
    let cds := collectCells nb.cells
    if cds.isEmpty then .ok ⟨filePath, stringify nb, true, none⟩
    else
      let rs := cds.map (runSeg g)
      .ok ⟨filePath, stringify ⟨applySegResults nb.cells rs⟩, true, none⟩

/-- Embedding of `LLMManager.translateMarkdown` (whole-document mode); an
LLM-call failure is rethrown wrapped, exactly as the source does. -/
def translateMarkdown (g : String → Except String String)
    (filePath content : String) : Except String TranslationResult :=
  match g content with
  | .ok tr => .ok ⟨filePath, tr, true, none⟩
  | .error e => .error ("翻译Markdown文件失败: " ++ e)

/-- `filePath.split('.').pop()?.toLowerCase()`. -/
def fileExtOf (filePath : String) : String :=
  jsToLower ((jsSplit '.' filePath).getLastD "")

/-- Embedding of `LLMManager.translateFile`: dispatch on the extension, catch
any exception into a failed result. -/
def translateFile (g : String → Except String String)
    (stringify : Notebook → String) (parse : String → Except String Notebook)
    (filePath content : String) : TranslationResult :=
  let attempt :=
    if fileExtOf filePath = "ipynb" then
      translateJupyterNotebook g stringify filePath (parse content)
    else
      translateMarkdown g filePath content
  match attempt with
  | .ok r => r
  | .error msg => ⟨filePath, "", false, some msg⟩

/-- Concrete capabilities for the counterexample run: the identity
translation, a trivial serialiser, and a parser that rejects everything. -/
def exIdTranslate : String → Except String String := fun s => .ok s

/-- A serialiser stub for concrete runs. -/
def exStringify : Notebook → String := fun _ => "{}"

/-- A parser that fails the way `JSON.parse` fails on a non-JSON document. -/
def exBadParse : String → Except String Notebook :=
  fun _ => .error "SyntaxError: Unexpected token"

/-- Claim C6, counterexample: a `.ipynb` document whose content fails to
parse is *not* translated whole-document — the run returns a result with
`success := false` and the wrapped parse error, although the very same
translation function would have translated the whole document successfully in
markdown mode.  So the parse failure *is* surfaced as a failed result. -/
theorem translateFile_parse_cex :
    (translateFile exIdTranslate exStringify exBadParse "nb.ipynb"
        "not json").success = false ∧
    (translateFile exIdTranslate exStringify exBadParse "nb.ipynb"
        "not json").error =
      some "翻译Jupyter Notebook文件失败: SyntaxError: Unexpected token" ∧
    (translateFile exIdTranslate exStringify exBadParse "doc.md"
        "not json").success = true := by
  refine ⟨?_, ?_, ?_⟩ <;> rfl

/-- Claim C6 (amended): for every composite (`.ipynb`) document whose content
fails to parse, `translateFile` returns a `TranslationResult` with
`success := false`, empty content and the wrapped parse error as its message —
there is no fallback to whole-document translation; the failure stays local
to this file (it is a result value, not a thrown error). -/
theorem translateFile_parse_failure (g : String → Except String String)
    (stringify : Notebook → String) (parse : String → Except String Notebook)
    (filePath content e : String)
    (hext : fileExtOf filePath = "ipynb")
    (hparse : parse content = .error e) :
    translateFile g stringify parse filePath content =
      ⟨filePath, "", false, some ("翻译Jupyter Notebook文件失败: " ++ e)⟩ := by
  unfold translateFile translateJupyterNotebook
  rw [if_pos hext, hparse]

/-- Witness for claim C6's amended theorem at the concrete failing parse. -/
theorem translateFile_parse_failure_witness :
    translateFile exIdTranslate exStringify exBadParse "nb.ipynb" "not json" =
      ⟨"nb.ipynb", "", false,
        some "翻译Jupyter Notebook文件失败: SyntaxError: Unexpected token"⟩ :=
  translateFile_parse_failure exIdTranslate exStringify exBadParse
    "nb.ipynb" "not json" "SyntaxError: Unexpected token" (by decide) rfl

/-! ### File records and filtering

`FileInfo` from `src/main/types/index.ts` and
`FileManager.applyFilters` (ConfigManager.ts, lines 381–420).
-/

/-- `FileInfo` from `src/main/types/index.ts`. -/
structure FileInfo where
  path : String
  status : FileStatus
  size : Nat
  lastModified : String
  extension : String
  sourceHash : Option String
  recordedHash : Option String
deriving DecidableEq, Repr

/-- The optional filter fields of `applyFilters`/`getFileTree`. -/
structure FileFilters where
  status : Option (List FileStatus)
  sizeMin : Option Nat
  sizeMax : Option Nat
  searchText : Option String
deriving Repr

/-- `path.basename` for the slash-separated paths `git ls-tree` yields
(no trailing separators). -/
def jsBasename (p : String) : String :=
  (jsSplit '/' p).getLastD ""

/-- The filter predicate of `FileManager.applyFilters`: status list (when
non-empty), size window in KiB, and case-insensitive substring search over
base name and full path.  The guard `q ≠ "" ∧ jsTrim q ≠ ""` is the source's
`filters.searchText && filters.searchText.trim()`. -/
def passesFilters (f : FileFilters) (fi : FileInfo) : Bool :=
  (match f.status with
   | some sts => if sts.isEmpty then true else sts.contains fi.status
   | none => true) &&
  (match f.sizeMin with
   | some m => !(fi.size < m * 1024)
   | none => true) &&
  (match f.sizeMax with
   | some m => !(fi.size > m * 1024)
   | none => true) &&
  (match f.searchText with
   | some q =>
     if q ≠ "" ∧ jsTrim q ≠ "" then
       jsIncludes (jsToLower (jsBasename fi.path)) (jsToLower q) ||
         jsIncludes (jsToLower fi.path) (jsToLower q)
     else true
   | none => true)

/-- Embedding of `FileManager.applyFilters`. -/
def applyFilters (fileInfos : List FileInfo) :
    Option FileFilters → List FileInfo
  | none => fileInfos
  | some f => fileInfos.filter (passesFilters f)

/-! ### The file tree

`FileTreeNode` (ConfigManager.ts, lines 635–641) and
`FileManager.buildFileTree` (lines 442–498).  The source builds the tree by
walking each file's path segments through a `nodeMap` keyed by the
accumulated path and pushing new nodes onto their parent's `children`;
a node's map key is the accumulated path of its position, so the map lookup
is equivalent to finding the segment's name in the current level, which is
how the embedding walks the forest.  Pushing onto the `children` of a *file*
node (`undefined`) is a TypeError; the embedding returns `none` there, so
`rawBuild` succeeds exactly when the source does not crash.

One domain note: the source attaches a node to its parent only under
`if (parentPath && nodeMap.has(parentPath))`, so a node whose accumulated
parent path is the *empty string* — which happens exactly when the path's
first split segment is empty, i.e. for a path starting with `/` or the empty
path — is pushed to the root instead.  `git ls-tree --name-only` never
produces such a path, and the embedding walks strictly structurally, so the
filtering theorem below states that well-formedness of the input paths as an
explicit hypothesis.

`sortNodes` sorts every level by the comparator "directories first, then
`a.name.localeCompare(b.name)`" and recurses into children.  `localeCompare`
is an external collation; it enters the embedding as an abstract comparator
`cmp : String → String → Int`, and the ordering theorems assume exactly that
it behaves as a total preorder comparison, which ICU collations do.  The
source sorts a level before recursing into the (already final) children;
the embedding sorts children first — the comparator reads only `isFile` and
`name`, which sorting children does not change, so the resulting tree is the
same.  `List.mergeSort` is, like JavaScript's `Array.prototype.sort`, a
stable sort.
-/

/-- `FileTreeNode` from ConfigManager.ts: `children` is `undefined` for file
nodes and an array for directory nodes. -/
inductive FileTreeNode where
  | node (name : String) (path : String) (isFile : Bool)
      (children : Option (List FileTreeNode)) (fileInfo : Option FileInfo)
deriving Repr

def FileTreeNode.name : FileTreeNode → String
  | .node n _ _ _ _ => n

def FileTreeNode.path : FileTreeNode → String
  | .node _ p _ _ _ => p

def FileTreeNode.isFile : FileTreeNode → Bool
  | .node _ _ f _ _ => f

def FileTreeNode.children : FileTreeNode → Option (List FileTreeNode)
  | .node _ _ _ ch _ => ch

def FileTreeNode.fileInfo : FileTreeNode → Option FileInfo
  | .node _ _ _ _ fi => fi

/-- The node's children, empty for a file node. -/
def FileTreeNode.childList (n : FileTreeNode) : List FileTreeNode :=
  n.children.getD []

/-- `currentPath = currentPath ? currentPath + '/' + part : part` — note the
JavaScript truthiness: an *empty* accumulated path joins without a slash. -/
def childPath (pref part : String) : String :=
  if pref = "" then part else pref ++ "/" ++ part

/-- The accumulated path of a segment sequence starting from `pref`. -/
def pathAcc (pref : String) (parts : List String) : String :=
  parts.foldl childPath pref

/-- Find the node of the current level carrying a segment name (the
`nodeMap.has(currentPath)` test, which keys nodes by accumulated path). -/
def findNamed (part : String) : List FileTreeNode → Option FileTreeNode
  | [] => none
  | n :: ns => if n.name = part then some n else findNamed part ns

/-- Replace a node's children in place (mutation of the mapped node). -/
def setChildren : FileTreeNode → List FileTreeNode → FileTreeNode
  | .node nm p f _ fi, ch => .node nm p f (some ch) fi

/-- Replace the (first) node of the level carrying the name. -/
def replaceNamed (part : String) (ch2 : List FileTreeNode) :
    List FileTreeNode → List FileTreeNode
  | [] => []
  | n :: ns =>
    if n.name = part then setChildren n ch2 :: ns
    else n :: replaceNamed part ch2 ns

/-- Insert one file's remaining path segments into a level of the forest.
New nodes are pushed at the end of their level (`children.push`); an existing
node with the segment's name is reused; reaching the last segment when a node
of that name already exists leaves the forest unchanged (the `nodeMap.has`
skip); descending into a node without `children` is the source's TypeError,
modelled as `none`. -/
def insertParts (fi : FileInfo) : List String → String →
    List FileTreeNode → Option (List FileTreeNode)
  | [], _, forest => some forest
  | [part], pref, forest =>
    if (findNamed part forest).isSome then some forest
    else some (forest ++ [.node part (childPath pref part) true none (some fi)])
  | part :: rest, pref, forest =>
    match findNamed part forest with
    | some n =>
      match n.children with
      | some ch =>
        (insertParts fi rest (childPath pref part) ch).map
          (fun ch2 => replaceNamed part ch2 forest)
      | none => none
    | none =>
      (insertParts fi rest (childPath pref part) []).map
        (fun ch => forest ++ [.node part (childPath pref part) false (some ch) none])

/-- The node-construction loop of `FileManager.buildFileTree`, before
sorting. -/
def rawBuild (fileInfos : List FileInfo) : Option (List FileTreeNode) :=
  fileInfos.foldlM
    (fun forest fi => insertParts fi (jsSplit '/' fi.path) "" forest) []

/-- The `sortNodes` comparator: directories before files, then the name
comparison (`localeCompare` as the abstract `cmp`). -/
def nodeCmpInt (cmp : String → String → Int) (a b : FileTreeNode) : Int :=
  if a.isFile != b.isFile then (if a.isFile then 1 else -1)
  else cmp a.name b.name

/-- The comparator as the Boolean "sorts not after" relation. -/
def nodeLe (cmp : String → String → Int) (a b : FileTreeNode) : Bool :=
  nodeCmpInt cmp a b ≤ 0

mutual

/-- Sort a node's children recursively (`sortNodes` on `node.children`). -/
def sortNode (cmp : String → String → Int) : FileTreeNode → FileTreeNode
  | .node nm p f none fi => .node nm p f none fi
  | .node nm p f (some ch) fi =>
    .node nm p f (some (List.mergeSort (sortEach cmp ch) (nodeLe cmp))) fi

/-- Recursively sort every node of a level (children only; the level itself
is sorted by the caller). -/
def sortEach (cmp : String → String → Int) :
    List FileTreeNode → List FileTreeNode
  | [] => []
  | n :: ns => sortNode cmp n :: sortEach cmp ns

end

/-- `sortNodes`: sort the level, and every node's children recursively. -/
def sortForest (cmp : String → String → Int) (l : List FileTreeNode) :
    List FileTreeNode :=
  List.mergeSort (sortEach cmp l) (nodeLe cmp)

/-- Embedding of `FileManager.buildFileTree`: build, then sort. -/
def buildFileTree (cmp : String → String → Int) (fileInfos : List FileInfo) :
    Option (List FileTreeNode) :=
  (rawBuild fileInfos).map (sortForest cmp)

/-- Embedding of `FileManager.getFileTree`'s core: filter the flat records,
then build the tree (the surrounding I/O — enumerating files and resolving
statuses — supplies `fileInfos`). -/
def getFileTree (cmp : String → String → Int) (fileInfos : List FileInfo)
    (filters : Option FileFilters) : Option (List FileTreeNode) :=
  buildFileTree cmp (applyFilters fileInfos filters)

mutual

/-- Every node of a forest, including all nested ones. -/
def forestNodes : List FileTreeNode → List FileTreeNode
  | [] => []
  | n :: ns => nodeNodes n ++ forestNodes ns

/-- A node together with all its descendants. -/
def nodeNodes : FileTreeNode → List FileTreeNode
  | .node nm p f none fi => [.node nm p f none fi]
  | .node nm p f (some ch) fi => .node nm p f (some ch) fi :: forestNodes ch

end

/-! ### Ordering of the built tree (sorting lemmas) -/

/-- The ordering the sorted levels satisfy: a directory never comes after a
file, and inside one kind the names are in comparator order. -/
def nodeRel (cmp : String → String → Int) (a b : FileTreeNode) : Prop :=
  (a.isFile = false ∧ b.isFile = true) ∨
  (a.isFile = b.isFile ∧ cmp a.name b.name ≤ 0)

theorem nodeLe_total (cmp : String → String → Int)
    (hto : ∀ a b, cmp a b ≤ 0 ∨ cmp b a ≤ 0) (a b : FileTreeNode) :
    nodeLe cmp a b || nodeLe cmp b a := by
  cases a with
  | node nmA pA fA chA fiA =>
  cases b with
  | node nmB pB fB chB fiB =>
  simp only [nodeLe, nodeCmpInt, FileTreeNode.isFile, FileTreeNode.name]
  cases fA <;> cases fB <;> simp <;>
    rcases hto nmA nmB with h | h <;> simp [h]

theorem nodeLe_trans (cmp : String → String → Int)
    (htr : ∀ a b c, cmp a b ≤ 0 → cmp b c ≤ 0 → cmp a c ≤ 0)
    (a b c : FileTreeNode) :
    nodeLe cmp a b → nodeLe cmp b c → nodeLe cmp a c := by
  cases a with
  | node nmA pA fA chA fiA =>
  cases b with
  | node nmB pB fB chB fiB =>
  cases c with
  | node nmC pC fC chC fiC =>
  simp only [nodeLe, nodeCmpInt, FileTreeNode.isFile, FileTreeNode.name]
  cases fA <;> cases fB <;> cases fC <;> simp <;>
    intro h1 h2 <;> exact htr _ _ _ h1 h2

theorem nodeLe_imp_nodeRel (cmp : String → String → Int)
    (a b : FileTreeNode) (h : nodeLe cmp a b) : nodeRel cmp a b := by
  cases a with
  | node nmA pA fA chA fiA =>
  cases b with
  | node nmB pB fB chB fiB =>
  simp only [nodeLe, nodeCmpInt, FileTreeNode.isFile, FileTreeNode.name] at h
  simp only [nodeRel, FileTreeNode.isFile, FileTreeNode.name]
  cases fA <;> cases fB <;> simp_all

theorem sortEach_eq_map (cmp : String → String → Int) :
    ∀ l : List FileTreeNode, sortEach cmp l = l.map (sortNode cmp) := by
  intro l
  induction l with
  | nil => rfl
  | cons n ns ih => simp [sortEach, ih]

/-- A sorted level is in `nodeRel` order. -/
theorem sortForest_pairwise (cmp : String → String → Int)
    (htr : ∀ a b c, cmp a b ≤ 0 → cmp b c ≤ 0 → cmp a c ≤ 0)
    (hto : ∀ a b, cmp a b ≤ 0 ∨ cmp b a ≤ 0) (l : List FileTreeNode) :
    (sortForest cmp l).Pairwise (nodeRel cmp) := by
  have h := List.sorted_mergeSort
    (fun a b c h1 h2 => nodeLe_trans cmp htr a b c h1 h2)
    (fun a b => nodeLe_total cmp hto a b) (sortEach cmp l)
  exact h.imp fun hab => nodeLe_imp_nodeRel cmp _ _ hab

theorem sortNode_name (cmp : String → String → Int) (n : FileTreeNode) :
    (sortNode cmp n).name = n.name := by
  cases n with
  | node nm p f ch fi => cases ch <;> rfl

theorem sortNode_path (cmp : String → String → Int) (n : FileTreeNode) :
    (sortNode cmp n).path = n.path := by
  cases n with
  | node nm p f ch fi => cases ch <;> rfl

theorem sortNode_isFile (cmp : String → String → Int) (n : FileTreeNode) :
    (sortNode cmp n).isFile = n.isFile := by
  cases n with
  | node nm p f ch fi => cases ch <;> rfl

theorem sortNode_fileInfo (cmp : String → String → Int) (n : FileTreeNode) :
    (sortNode cmp n).fileInfo = n.fileInfo := by
  cases n with
  | node nm p f ch fi => cases ch <;> rfl

theorem sortNode_childList (cmp : String → String → Int) (n : FileTreeNode) :
    (sortNode cmp n).childList = sortForest cmp n.childList := by
  cases n with
  | node nm p f ch fi =>
    cases ch with
    | none =>
      simp [sortNode, FileTreeNode.childList, FileTreeNode.children,
        sortForest, sortEach]
    | some ch =>
      simp [sortNode, FileTreeNode.childList, FileTreeNode.children,
        sortForest]

theorem mem_forestNodes_iff :
    ∀ (l : List FileTreeNode) (m : FileTreeNode),
      m ∈ forestNodes l ↔ ∃ n ∈ l, m ∈ nodeNodes n := by
  intro l
  induction l with
  | nil => simp [forestNodes]
  | cons n ns ih =>
    intro m
    simp only [forestNodes, List.mem_append, ih, List.mem_cons]
    constructor
    · rintro (h | ⟨n', hn', hm⟩)
      · exact ⟨n, Or.inl rfl, h⟩
      · exact ⟨n', Or.inr hn', hm⟩
    · rintro ⟨n', rfl | hn', hm⟩
      · exact Or.inl hm
      · exact Or.inr ⟨n', hn', hm⟩

theorem mem_nodeNodes_iff (n m : FileTreeNode) :
    m ∈ nodeNodes n ↔ m = n ∨ m ∈ forestNodes n.childList := by
  cases n with
  | node nm p f ch fi =>
    cases ch with
    | none =>
      simp [nodeNodes, FileTreeNode.childList, FileTreeNode.children,
        forestNodes]
    | some ch =>
      simp [nodeNodes, FileTreeNode.childList, FileTreeNode.children]

theorem sizeOf_children_lt (n : FileTreeNode) (ch : List FileTreeNode)
    (h : n.children = some ch) : sizeOf ch < sizeOf n := by
  cases n with
  | node nm p f ch' fi =>
    simp only [FileTreeNode.children] at h
    subst h
    simp
    omega

theorem sizeOf_childList_lt (n : FileTreeNode) (l : List FileTreeNode)
    (hn : n ∈ l) : sizeOf n.childList ≤ sizeOf n ∧ sizeOf n < sizeOf l := by
  constructor
  · cases n with
    | node nm p f ch fi =>
      cases ch with
      | none =>
        simp only [FileTreeNode.childList, FileTreeNode.children,
          Option.getD_none]
        simp
        omega
      | some ch =>
        have := sizeOf_children_lt (.node nm p f (some ch) fi) ch rfl
        simp only [FileTreeNode.childList, FileTreeNode.children,
          Option.getD_some]
        omega
  · exact List.sizeOf_lt_of_mem hn

/-- Members of a sorted forest are exactly the sorted images of the members
of the forest (at every depth). -/
theorem sort_corr_aux (cmp : String → String → Int) :
    ∀ (k : Nat) (l : List FileTreeNode), sizeOf l ≤ k →
      ∀ m, m ∈ forestNodes (sortForest cmp l) ↔
        ∃ m₀ ∈ forestNodes l, m = sortNode cmp m₀ := by
  intro k
  induction k with
  | zero =>
    intro l hl
    cases l with
    | nil => intro m; simp [sortForest, sortEach, forestNodes]
    | cons n ns => simp at hl
  | succ k ih =>
    intro l hl m
    have step1 : m ∈ forestNodes (sortForest cmp l) ↔
        ∃ n ∈ l, m ∈ nodeNodes (sortNode cmp n) := by
      rw [mem_forestNodes_iff]
      constructor
      · rintro ⟨n', hn', hm⟩
        rw [sortForest, List.mem_mergeSort, sortEach_eq_map,
          List.mem_map] at hn'
        rcases hn' with ⟨n, hn, rfl⟩
        exact ⟨n, hn, hm⟩
      · rintro ⟨n, hn, hm⟩
        refine ⟨sortNode cmp n, ?_, hm⟩
        rw [sortForest, List.mem_mergeSort, sortEach_eq_map, List.mem_map]
        exact ⟨n, hn, rfl⟩
    rw [step1]
    constructor
    · rintro ⟨n, hn, hm⟩
      rw [mem_nodeNodes_iff, sortNode_childList] at hm
      rcases hm with rfl | hm
      · exact ⟨n, (mem_forestNodes_iff l n).mpr
          ⟨n, hn, (mem_nodeNodes_iff n n).mpr (Or.inl rfl)⟩, rfl⟩
      · have hsz := sizeOf_childList_lt n l hn
        have : sizeOf n.childList ≤ k := by omega
        rcases (ih n.childList this m).mp hm with ⟨m₀, hm₀, rfl⟩
        refine ⟨m₀, ?_, rfl⟩
        rw [mem_forestNodes_iff]
        exact ⟨n, hn, (mem_nodeNodes_iff n m₀).mpr (Or.inr hm₀)⟩
    · rintro ⟨m₀, hm₀, rfl⟩
      rw [mem_forestNodes_iff] at hm₀
      rcases hm₀ with ⟨n, hn, hm₀⟩
      refine ⟨n, hn, ?_⟩
      rw [mem_nodeNodes_iff] at hm₀
      rw [mem_nodeNodes_iff, sortNode_childList]
      rcases hm₀ with rfl | hm₀
      · exact Or.inl rfl
      · right
        have hsz := sizeOf_childList_lt n l hn
        have : sizeOf n.childList ≤ k := by omega
        exact (ih n.childList this (sortNode cmp m₀)).mpr ⟨m₀, hm₀, rfl⟩

theorem mem_sortForest_iff (cmp : String → String → Int)
    (l : List FileTreeNode) (m : FileTreeNode) :
    m ∈ forestNodes (sortForest cmp l) ↔
      ∃ m₀ ∈ forestNodes l, m = sortNode cmp m₀ :=
  sort_corr_aux cmp (sizeOf l) l le_rfl m

/-- Claim C8: in every tree the tree builder produces (for any comparator
`cmp` — the abstract `localeCompare` collation — that is transitive and
total), the root level and every node's children satisfy: all directory
children precede all file children, and within each of the two groups the
children are in `cmp` order of their names — one comparison policy, applied
at every level. -/
theorem buildFileTree_ordering (cmp : String → String → Int)
    (fileInfos : List FileInfo) (tree : List FileTreeNode)
    (htr : ∀ a b c, cmp a b ≤ 0 → cmp b c ≤ 0 → cmp a c ≤ 0)
    (hto : ∀ a b, cmp a b ≤ 0 ∨ cmp b a ≤ 0)
    (hb : buildFileTree cmp fileInfos = some tree) :
    tree.Pairwise (nodeRel cmp) ∧
    ∀ n ∈ forestNodes tree, n.childList.Pairwise (nodeRel cmp) := by
  unfold buildFileTree at hb
  rcases Option.map_eq_some'.mp hb with ⟨raw, _, rfl⟩
  constructor
  · exact sortForest_pairwise cmp htr hto raw
  · intro n hn
    rcases (mem_sortForest_iff cmp raw n).mp hn with ⟨m₀, _, rfl⟩
    rw [sortNode_childList]
    exact sortForest_pairwise cmp htr hto m₀.childList

/-! ### A concrete comparator and tree for the ordering witness

`localeCompare` itself is an ICU collation; for concrete runs any transitive,
total comparison will do.  `cmpLex` compares code points lexicographically.
-/

/-- Code-point lexicographic "not after" on character lists. -/
def charListLe : List Char → List Char → Bool
  | [], _ => true
  | _ :: _, [] => false
  | a :: as, b :: bs =>
    if a.toNat < b.toNat then true
    else if a.toNat = b.toNat then charListLe as bs
    else false

/-- Code-point lexicographic "not after" on strings. -/
def strLe (a b : String) : Bool := charListLe a.data b.data

/-- A concrete total comparator standing in for `localeCompare`. -/
def cmpLex (a b : String) : Int := if strLe a b then -1 else 1

theorem charListLe_total : ∀ as bs : List Char,
    charListLe as bs = true ∨ charListLe bs as = true := by
  intro as
  induction as with
  | nil => intro bs; left; rfl
  | cons a as ih =>
    intro bs
    cases bs with
    | nil => right; rfl
    | cons b bs =>
      rcases Nat.lt_trichotomy a.toNat b.toNat with h | h | h
      · left; simp [charListLe, h]
      · rcases ih bs with h' | h'
        · left; simp [charListLe, h, h']
        · right; simp [charListLe, h.symm, h']
      · right; simp [charListLe, h]

theorem charListLe_trans : ∀ as bs cs : List Char,
    charListLe as bs = true → charListLe bs cs = true →
      charListLe as cs = true := by
  intro as
  induction as with
  | nil => intro bs cs _ _; rfl
  | cons a as ih =>
    intro bs cs h1 h2
    cases bs with
    | nil => simp [charListLe] at h1
    | cons b bs =>
      cases cs with
      | nil => simp [charListLe] at h2
      | cons c cs =>
        simp only [charListLe] at h1 h2 ⊢
        rcases Nat.lt_trichotomy a.toNat b.toNat with hab | hab | hab <;>
          rcases Nat.lt_trichotomy b.toNat c.toNat with hbc | hbc | hbc
        · simp [show a.toNat < c.toNat by omega]
        · simp [show a.toNat < c.toNat by omega]
        · simp [show ¬ b.toNat < c.toNat by omega,
            show ¬ b.toNat = c.toNat by omega] at h2
        · simp [show a.toNat < c.toNat by omega]
        · have e1 : charListLe as bs = true := by
            simpa [hab, Nat.lt_irrefl] using h1
          have e2 : charListLe bs cs = true := by
            simpa [hbc, Nat.lt_irrefl] using h2
          simp [show ¬ a.toNat < c.toNat by omega,
            show a.toNat = c.toNat by omega, ih bs cs e1 e2]
        · simp [show ¬ b.toNat < c.toNat by omega,
            show ¬ b.toNat = c.toNat by omega] at h2
        · simp [show ¬ a.toNat < b.toNat by omega,
            show ¬ a.toNat = b.toNat by omega] at h1
        · simp [show ¬ a.toNat < b.toNat by omega,
            show ¬ a.toNat = b.toNat by omega] at h1
        · simp [show ¬ a.toNat < b.toNat by omega,
            show ¬ a.toNat = b.toNat by omega] at h1

theorem cmpLex_le_iff (a b : String) : cmpLex a b ≤ 0 ↔ strLe a b = true := by
  unfold cmpLex
  cases h : strLe a b <;> simp [h]

theorem cmpLex_trans (a b c : String) (h1 : cmpLex a b ≤ 0)
    (h2 : cmpLex b c ≤ 0) : cmpLex a c ≤ 0 := by
  rw [cmpLex_le_iff] at h1 h2 ⊢
  exact charListLe_trans a.data b.data c.data h1 h2

theorem cmpLex_total (a b : String) : cmpLex a b ≤ 0 ∨ cmpLex b a ≤ 0 := by
  rw [cmpLex_le_iff, cmpLex_le_iff]
  exact charListLe_total a.data b.data

/-- A concrete file record for the tree witnesses. -/
def exInfo (p : String) : FileInfo :=
  ⟨p, .untranslated, 10, "", "md", some "h", none⟩

/-- Concrete input records (deliberately out of order). -/
def exInfos8 : List FileInfo :=
  [exInfo "docs/b.md", exInfo "docs/a.md", exInfo "README.md"]

/-- The tree the builder produces for `exInfos8`. -/
def exTree8 : List FileTreeNode :=
  [.node "docs" "docs" false
      (some [.node "a.md" "docs/a.md" true none (some (exInfo "docs/a.md")),
             .node "b.md" "docs/b.md" true none (some (exInfo "docs/b.md"))])
      none,
   .node "README.md" "README.md" true none (some (exInfo "README.md"))]

unseal List.merge List.mergeSort in
/-- Witness for claim C8: the concrete build puts the `docs` directory before
the `README.md` file and sorts `a.md` before `b.md` inside it. -/
theorem buildFileTree_ordering_witness :
    exTree8.Pairwise (nodeRel cmpLex) ∧
    ∀ n ∈ forestNodes exTree8, n.childList.Pairwise (nodeRel cmpLex) :=
  buildFileTree_ordering cmpLex exInfos8 exTree8
    (fun a b c h1 h2 => cmpLex_trans a b c h1 h2)
    (fun a b => cmpLex_total a b)
    (by rfl)

/-! ### Structural invariants of the built tree (towards the filtering claim) -/

/-- Every node is either a file without `children` or a directory with a
`children` array — the only two shapes `buildFileTree` creates. -/
def KindOk (forest : List FileTreeNode) : Prop :=
  ∀ n ∈ forestNodes forest,
    (n.isFile = true ∧ n.children = none) ∨
    (n.isFile = false ∧ n.children ≠ none)

/-- Every directory node has at least one file among its descendants. -/
def DirsHaveFile (forest : List FileTreeNode) : Prop :=
  ∀ n ∈ forestNodes forest, n.isFile = false →
    ∃ m ∈ forestNodes n.childList, m.isFile = true

/-- Every file node carries one of the given records. -/
def FilesFrom (L : List FileInfo) (forest : List FileTreeNode) : Prop :=
  ∀ m ∈ forestNodes forest, m.isFile = true → ∃ fi ∈ L, m.fileInfo = some fi

/-- Some directory node with the given accumulated path is present. -/
def DirAt (forest : List FileTreeNode) (p : String) : Prop :=
  ∃ n ∈ forestNodes forest, n.isFile = false ∧ n.path = p

mutual

/-- Every node's `path` is its position's accumulated path (`nodeMap` key). -/
inductive NodePathOk : String → FileTreeNode → Prop where
  | mk : ∀ (pref : String) (n : FileTreeNode),
      n.path = childPath pref n.name →
      ForestPathOk n.path n.childList →
      NodePathOk pref n

/-- `NodePathOk` for every node of a level. -/
inductive ForestPathOk : String → List FileTreeNode → Prop where
  | nil : ∀ pref, ForestPathOk pref []
  | cons : ∀ (pref : String) (n : FileTreeNode) (ns : List FileTreeNode),
      NodePathOk pref n → ForestPathOk pref ns →
      ForestPathOk pref (n :: ns)

end

theorem forestNodes_append :
    ∀ a b : List FileTreeNode,
      forestNodes (a ++ b) = forestNodes a ++ forestNodes b := by
  intro a b
  induction a with
  | nil => simp [forestNodes]
  | cons n ns ih => simp [forestNodes, ih]

theorem self_mem_forestNodes {n : FileTreeNode} {l : List FileTreeNode}
    (h : n ∈ l) : n ∈ forestNodes l :=
  (mem_forestNodes_iff l n).mpr ⟨n, h, (mem_nodeNodes_iff n n).mpr (Or.inl rfl)⟩

theorem mem_of_mem_childList {n m : FileTreeNode} {l : List FileTreeNode}
    (hn : n ∈ l) (hm : m ∈ forestNodes n.childList) : m ∈ forestNodes l :=
  (mem_forestNodes_iff l m).mpr ⟨n, hn, (mem_nodeNodes_iff n m).mpr (Or.inr hm)⟩

theorem setChildren_fields (n : FileTreeNode) (ch2 : List FileTreeNode) :
    (setChildren n ch2).name = n.name ∧
    (setChildren n ch2).path = n.path ∧
    (setChildren n ch2).isFile = n.isFile ∧
    (setChildren n ch2).fileInfo = n.fileInfo ∧
    (setChildren n ch2).children = some ch2 ∧
    (setChildren n ch2).childList = ch2 := by
  cases n with
  | node nm p f ch fi =>
    refine ⟨rfl, rfl, rfl, rfl, rfl, rfl⟩

theorem nodeNodes_setChildren (n : FileTreeNode) (ch2 : List FileTreeNode) :
    nodeNodes (setChildren n ch2) = setChildren n ch2 :: forestNodes ch2 := by
  cases n with
  | node nm p f ch fi => rfl

theorem nodeNodes_file (nm p : String) (fi : Option FileInfo) :
    nodeNodes (.node nm p true none fi) = [.node nm p true none fi] := rfl

theorem findNamed_split (part : String) :
    ∀ (l : List FileTreeNode) (n : FileTreeNode),
      findNamed part l = some n →
      n.name = part ∧
      ∃ pre post, l = pre ++ n :: post ∧
        ∀ ch2, replaceNamed part ch2 l = pre ++ setChildren n ch2 :: post := by
  intro l
  induction l with
  | nil => intro n h; cases h
  | cons m ms ih =>
    intro n h
    by_cases hm : m.name = part
    · rw [findNamed, if_pos hm] at h
      cases h
      refine ⟨hm, [], ms, rfl, ?_⟩
      intro ch2
      rw [replaceNamed, if_pos hm]
      rfl
    · rw [findNamed, if_neg hm] at h
      rcases ih n h with ⟨hname, pre, post, rfl, hrepl⟩
      refine ⟨hname, m :: pre, post, rfl, ?_⟩
      intro ch2
      rw [replaceNamed, if_neg hm, hrepl ch2]
      rfl

theorem findNamed_isSome_ex (part : String) (l : List FileTreeNode)
    (h : (findNamed part l).isSome) :
    ∃ n ∈ l, n.name = part := by
  rcases Option.isSome_iff_exists.mp h with ⟨n, hn⟩
  rcases findNamed_split part l n hn with ⟨hname, pre, post, rfl, _⟩
  exact ⟨n, by simp, hname⟩

theorem forestPathOk_append {pref : String} :
    ∀ {a b : List FileTreeNode},
      ForestPathOk pref a → ForestPathOk pref b → ForestPathOk pref (a ++ b) := by
  intro a
  induction a with
  | nil => intro b _ hb; simpa using hb
  | cons n ns ih =>
    intro b ha hb
    cases ha with
    | cons _ _ _ hn hns => exact .cons _ _ _ hn (ih hns hb)

theorem forestPathOk_append_inv {pref : String} :
    ∀ {a b : List FileTreeNode},
      ForestPathOk pref (a ++ b) → ForestPathOk pref a ∧ ForestPathOk pref b := by
  intro a
  induction a with
  | nil => intro b h; exact ⟨.nil pref, by simpa using h⟩
  | cons n ns ih =>
    intro b h
    rw [List.cons_append] at h
    cases h with
    | cons _ _ _ hn hrest =>
      rcases ih hrest with ⟨h1, h2⟩
      exact ⟨.cons _ _ _ hn h1, h2⟩

theorem forestPathOk_mem {pref : String} :
    ∀ {l : List FileTreeNode} {n : FileTreeNode},
      ForestPathOk pref l → n ∈ l → NodePathOk pref n := by
  intro l
  induction l with
  | nil => intro n _ hn; cases hn
  | cons m ms ih =>
    intro n h hn
    cases h with
    | cons _ _ _ hm hms =>
      rcases List.mem_cons.mp hn with rfl | hn'
      · exact hm
      · exact ih hms hn'

theorem kindOk_childList {l : List FileTreeNode} {n : FileTreeNode}
    (h : KindOk l) (hn : n ∈ l) : KindOk n.childList :=
  fun m hm => h m (mem_of_mem_childList hn hm)

theorem dirsHaveFile_childList {l : List FileTreeNode} {n : FileTreeNode}
    (h : DirsHaveFile l) (hn : n ∈ l) : DirsHaveFile n.childList :=
  fun m hm => h m (mem_of_mem_childList hn hm)

theorem filesFrom_childList {L : List FileInfo} {l : List FileTreeNode}
    {n : FileTreeNode} (h : FilesFrom L l) (hn : n ∈ l) :
    FilesFrom L n.childList :=
  fun m hm => h m (mem_of_mem_childList hn hm)

theorem kindOk_nil : KindOk [] := by
  intro n hn
  simp [forestNodes] at hn

theorem dirsHaveFile_nil : DirsHaveFile [] := by
  intro n hn
  simp [forestNodes] at hn

theorem filesFrom_nil (L : List FileInfo) : FilesFrom L [] := by
  intro n hn
  simp [forestNodes] at hn

theorem nodeNodes_eq_cons {n : FileTreeNode} {ch : List FileTreeNode}
    (h : n.children = some ch) : nodeNodes n = n :: forestNodes ch := by
  cases n with
  | node nm p f och fi =>
    simp only [FileTreeNode.children] at h
    subst h
    rfl

theorem pathAcc_cons (pref part : String) (parts : List String) :
    pathAcc pref (part :: parts) = pathAcc (childPath pref part) parts := rfl

/-- The invariants one insertion preserves and establishes: well-shaped
nodes, every directory keeping a file descendant, file nodes carrying only
given records, correct accumulated paths; moreover a non-trivial insertion
leaves at least one file in the level, existing directories survive, and a
directory node exists at every proper prefix of the inserted path. -/
theorem insertParts_invariants (fi : FileInfo) (L : List FileInfo)
    (hfi : fi ∈ L) :
    ∀ (parts : List String) (pref : String)
      (forest forest' : List FileTreeNode),
      insertParts fi parts pref forest = some forest' →
      KindOk forest → DirsHaveFile forest → FilesFrom L forest →
      ForestPathOk pref forest →
      KindOk forest' ∧ DirsHaveFile forest' ∧ FilesFrom L forest' ∧
      ForestPathOk pref forest' ∧
      (parts ≠ [] → ∃ m ∈ forestNodes forest', m.isFile = true) ∧
      (∀ p, DirAt forest p → DirAt forest' p) ∧
      (∀ k, k + 1 < parts.length →
        DirAt forest' (pathAcc pref (parts.take (k + 1)))) := by
  intro parts
  induction parts with
  | nil =>
    intro pref forest forest' hins hk hd hf hp
    simp only [insertParts, Option.some.injEq] at hins
    subst hins
    refine ⟨hk, hd, hf, hp, fun h => absurd rfl h, fun p h => h, ?_⟩
    intro k hk1
    simp at hk1
  | cons part rest ih =>
    intro pref forest forest' hins hk hd hf hp
    cases rest with
    | nil =>
      -- last segment: create the file node, or skip if the name is taken
      simp only [insertParts] at hins
      by_cases hfind : (findNamed part forest).isSome
      · rw [if_pos hfind, Option.some.injEq] at hins
        subst hins
        refine ⟨hk, hd, hf, hp, ?_, fun p h => h, ?_⟩
        · intro _
          rcases findNamed_isSome_ex part forest hfind with ⟨n₀, hn₀, _⟩
          cases hn₀f : n₀.isFile with
          | true => exact ⟨n₀, self_mem_forestNodes hn₀, hn₀f⟩
          | false =>
            rcases hd n₀ (self_mem_forestNodes hn₀) hn₀f with ⟨m, hm, hmf⟩
            exact ⟨m, mem_of_mem_childList hn₀ hm, hmf⟩
        · intro k hk1
          simp at hk1
      · rw [if_neg hfind, Option.some.injEq] at hins
        subst hins
        have hfn : forestNodes (forest ++
            [FileTreeNode.node part (childPath pref part) true none (some fi)]) =
            forestNodes forest ++
              [FileTreeNode.node part (childPath pref part) true none (some fi)] := by
          rw [forestNodes_append]
          rfl
        refine ⟨?_, ?_, ?_, ?_, ?_, ?_, ?_⟩
        · intro n hn
          rw [hfn] at hn
          rcases List.mem_append.mp hn with h | h
          · exact hk n h
          · rcases List.mem_singleton.mp h with rfl
            exact Or.inl ⟨rfl, rfl⟩
        · intro n hn hnf
          rw [hfn] at hn
          rcases List.mem_append.mp hn with h | h
          · exact hd n h hnf
          · rcases List.mem_singleton.mp h with rfl
            simp [FileTreeNode.isFile] at hnf
        · intro m hm hmf
          rw [hfn] at hm
          rcases List.mem_append.mp hm with h | h
          · exact hf m h hmf
          · rcases List.mem_singleton.mp h with rfl
            exact ⟨fi, hfi, rfl⟩
        · refine forestPathOk_append hp (.cons _ _ _ ?_ (.nil _))
          refine NodePathOk.mk _ _ rfl ?_
          exact .nil _
        · intro _
          refine ⟨FileTreeNode.node part (childPath pref part) true none
            (some fi), ?_, rfl⟩
          rw [hfn]
          simp
        · intro p hpd
          rcases hpd with ⟨n, hn, h1, h2⟩
          exact ⟨n, by rw [hfn]; exact List.mem_append_left _ hn, h1, h2⟩
        · intro k hk1
          simp at hk1
    | cons r rs =>
      -- intermediate segment: descend into (or create) the directory
      simp only [insertParts] at hins
      cases hfind : findNamed part forest with
      | some n =>
        rw [hfind] at hins
        have hins1 : (match n.children with
            | some ch =>
              (insertParts fi (r :: rs) (childPath pref part) ch).map
                (fun ch2 => replaceNamed part ch2 forest)
            | none => none) = some forest' := hins
        cases hch : n.children with
        | none =>
          rw [hch] at hins1
          simp at hins1
        | some ch =>
          rw [hch] at hins1
          have hins2 : (insertParts fi (r :: rs) (childPath pref part) ch).map
              (fun ch2 => replaceNamed part ch2 forest) = some forest' := hins1
          rcases Option.map_eq_some'.mp hins2 with ⟨ch', hch', heq⟩
          rcases findNamed_split part forest n hfind with
            ⟨hname, pre, post, hsplit, hrepl⟩
          have hforest' : forest' = pre ++ setChildren n ch' :: post := by
            rw [← heq, hrepl ch']
          have hnmem : n ∈ forest := by rw [hsplit]; simp
          have hnp : NodePathOk pref n := forestPathOk_mem hp hnmem
          rcases hnp with ⟨_, _, hpath, hchok⟩
          have hchl : n.childList = ch := by
            simp [FileTreeNode.childList, hch]
          have hpref' : n.path = childPath pref part := by
            rw [hpath, hname]
          have hkch : KindOk ch := hchl ▸ kindOk_childList hk hnmem
          have hdch : DirsHaveFile ch := hchl ▸ dirsHaveFile_childList hd hnmem
          have hfch : FilesFrom L ch := hchl ▸ filesFrom_childList hf hnmem
          have hpch : ForestPathOk (childPath pref part) ch := by
            rw [← hpref', ← hchl]
            exact hchok
          obtain ⟨ik, idh, ifl, ipo, iex, imono, icreate⟩ :=
            ih (childPath pref part) ch ch' hch' hkch hdch hfch hpch
          have hn_dir : n.isFile = false := by
            rcases hk n (self_mem_forestNodes hnmem) with ⟨_, hnone⟩ | ⟨hdir, _⟩
            · rw [hch] at hnone; cases hnone
            · exact hdir
          have hs := setChildren_fields n ch'
          have hFnew : forestNodes forest' =
              forestNodes pre ++ (setChildren n ch' :: forestNodes ch') ++
                forestNodes post := by
            rw [hforest', forestNodes_append, forestNodes,
              nodeNodes_setChildren, List.append_assoc]
          have hFold : forestNodes forest =
              forestNodes pre ++ (n :: forestNodes ch) ++ forestNodes post := by
            rw [hsplit, forestNodes_append, forestNodes, nodeNodes_eq_cons hch,
              List.append_assoc]
          have hmem_old : ∀ m, m ∈ forestNodes pre ∨ m ∈ forestNodes post →
              m ∈ forestNodes forest := by
            intro m hm
            rw [hFold]
            rcases hm with h | h
            · simp [h]
            · simp [h]
          have hmem_new : ∀ m, m ∈ forestNodes forest' ↔
              (m ∈ forestNodes pre ∨ m ∈ forestNodes post) ∨
                m = setChildren n ch' ∨ m ∈ forestNodes ch' := by
            intro m
            rw [hFnew]
            simp only [List.mem_append, List.mem_cons]
            tauto
          have hfile_in : ∃ m ∈ forestNodes forest', m.isFile = true := by
            rcases iex (by simp) with ⟨m, hm, hmf⟩
            refine ⟨m, ?_, hmf⟩
            rw [hmem_new]
            tauto
          refine ⟨?_, ?_, ?_, ?_, fun _ => hfile_in, ?_, ?_⟩
          · intro m hm
            rcases (hmem_new m).mp hm with h | h | h
            · exact hk m (hmem_old m h)
            · subst h
              right
              rw [hs.2.2.1, hs.2.2.2.2.1]
              exact ⟨hn_dir, by simp⟩
            · exact ik m h
          · intro m hm hmf
            rcases (hmem_new m).mp hm with h | h | h
            · exact hd m (hmem_old m h) hmf
            · subst h
              rw [hs.2.2.2.2.2]
              rcases iex (by simp) with ⟨m', hm', hmf'⟩
              exact ⟨m', hm', hmf'⟩
            · exact idh m h hmf
          · intro m hm hmf
            rcases (hmem_new m).mp hm with h | h | h
            · exact hf m (hmem_old m h) hmf
            · subst h
              rw [hs.2.2.1] at hmf
              rw [hn_dir] at hmf
              cases hmf
            · exact ifl m h hmf
          · rw [hforest']
            rw [hsplit] at hp
            rcases forestPathOk_append_inv hp with ⟨hppre, hpcons⟩
            have hppost : ForestPathOk pref post := by
              cases hpcons with
              | cons _ _ _ _ hpost => exact hpost
            refine forestPathOk_append hppre (.cons _ _ _ ?_ hppost)
            refine NodePathOk.mk _ _ ?_ ?_
            · rw [hs.2.1, hs.1, hpath]
            · rw [hs.2.1, hs.2.2.2.2.2, hpref']
              exact ipo
          · intro p hpd
            rcases hpd with ⟨m, hm, h1, h2⟩
            rw [hFold] at hm
            simp only [List.mem_append, List.mem_cons] at hm
            rcases hm with (hmm | hmm | hmm) | hmm
            · exact ⟨m, (hmem_new m).mpr (Or.inl (Or.inl hmm)), h1, h2⟩
            · subst hmm
              refine ⟨setChildren m ch', (hmem_new _).mpr (by tauto), ?_, ?_⟩
              · rw [hs.2.2.1]; exact h1
              · rw [hs.2.1]; exact h2
            · rcases imono p ⟨m, hmm, h1, h2⟩ with ⟨m', hm', h1', h2'⟩
              exact ⟨m', (hmem_new m').mpr (by tauto), h1', h2'⟩
            · exact ⟨m, (hmem_new m).mpr (Or.inl (Or.inr hmm)), h1, h2⟩
          · intro k hk1
            cases k with
            | zero =>
              refine ⟨setChildren n ch', (hmem_new _).mpr (by tauto), ?_, ?_⟩
              · rw [hs.2.2.1]; exact hn_dir
              · rw [hs.2.1, hpref']
                rfl
            | succ j =>
              have hk2 : j + 1 < (r :: rs).length := by
                simp at hk1 ⊢
                omega
              rcases icreate j hk2 with ⟨m, hm, h1, h2⟩
              refine ⟨m, (hmem_new m).mpr (by tauto), h1, ?_⟩
              rw [List.take_succ_cons, pathAcc_cons]
              exact h2
      | none =>
        rw [hfind] at hins
        have hins1 : (insertParts fi (r :: rs) (childPath pref part) []).map
            (fun ch => forest ++
              [FileTreeNode.node part (childPath pref part) false (some ch)
                none]) = some forest' := hins
        rcases Option.map_eq_some'.mp hins1 with ⟨ch', hch', heq⟩
        obtain ⟨ik, idh, ifl, ipo, iex, _, icreate⟩ :=
          ih (childPath pref part) [] ch' hch' kindOk_nil dirsHaveFile_nil
            (filesFrom_nil L) (.nil _)
        have hone : forestNodes
            [FileTreeNode.node part (childPath pref part) false (some ch')
              none] =
            FileTreeNode.node part (childPath pref part) false (some ch')
              none :: forestNodes ch' := by
          simp [forestNodes, nodeNodes]
        have hfn : forestNodes forest' =
            forestNodes forest ++
              (FileTreeNode.node part (childPath pref part) false (some ch')
                none :: forestNodes ch') := by
          rw [← heq, forestNodes_append, hone]
        have hmem_new : ∀ m, m ∈ forestNodes forest' ↔
            m ∈ forestNodes forest ∨
              m = FileTreeNode.node part (childPath pref part) false (some ch')
                none ∨ m ∈ forestNodes ch' := by
          intro m
          rw [hfn]
          simp only [List.mem_append, List.mem_cons]
        have hfile_in : ∃ m ∈ forestNodes forest', m.isFile = true := by
          rcases iex (by simp) with ⟨m, hm, hmf⟩
          exact ⟨m, (hmem_new m).mpr (by tauto), hmf⟩
        refine ⟨?_, ?_, ?_, ?_, fun _ => hfile_in, ?_, ?_⟩
        · intro m hm
          rcases (hmem_new m).mp hm with h | h | h
          · exact hk m h
          · subst h
            exact Or.inr ⟨rfl, by simp [FileTreeNode.children]⟩
          · exact ik m h
        · intro m hm hmf
          rcases (hmem_new m).mp hm with h | h | h
          · exact hd m h hmf
          · subst h
            rcases iex (by simp) with ⟨m', hm', hmf'⟩
            refine ⟨m', ?_, hmf'⟩
            simpa [FileTreeNode.childList, FileTreeNode.children] using hm'
          · exact idh m h hmf
        · intro m hm hmf
          rcases (hmem_new m).mp hm with h | h | h
          · exact hf m h hmf
          · subst h
            simp [FileTreeNode.isFile] at hmf
          · exact ifl m h hmf
        · rw [← heq]
          refine forestPathOk_append hp (.cons _ _ _ ?_ (.nil _))
          refine NodePathOk.mk _ _ rfl ?_
          simpa [FileTreeNode.childList, FileTreeNode.children,
            FileTreeNode.path] using ipo
        · intro p hpd
          rcases hpd with ⟨m, hm, h1, h2⟩
          exact ⟨m, (hmem_new m).mpr (Or.inl hm), h1, h2⟩
        · intro k hk1
          cases k with
          | zero =>
            refine ⟨FileTreeNode.node part (childPath pref part) false
              (some ch') none, (hmem_new _).mpr (by tauto), rfl, rfl⟩
          | succ j =>
            have hk2 : j + 1 < (r :: rs).length := by
              simp at hk1 ⊢
              omega
            rcases icreate j hk2 with ⟨m, hm, h1, h2⟩
            refine ⟨m, (hmem_new m).mpr (by tauto), h1, ?_⟩
            rw [List.take_succ_cons, pathAcc_cons]
            exact h2

/-- The invariants across the whole node-construction loop. -/
theorem rawBuild_invariants (L : List FileInfo) :
    ∀ (fileInfos : List FileInfo) (forest forest' : List FileTreeNode),
      fileInfos.foldlM (fun forest fi =>
        insertParts fi (jsSplit '/' fi.path) "" forest) forest = some forest' →
      (∀ fi ∈ fileInfos, fi ∈ L) →
      KindOk forest → DirsHaveFile forest → FilesFrom L forest →
      ForestPathOk "" forest →
      KindOk forest' ∧ DirsHaveFile forest' ∧ FilesFrom L forest' ∧
      ForestPathOk "" forest' ∧
      (∀ p, DirAt forest p → DirAt forest' p) ∧
      (∀ fi ∈ fileInfos, ∀ k, k + 1 < (jsSplit '/' fi.path).length →
        DirAt forest' (pathAcc "" ((jsSplit '/' fi.path).take (k + 1)))) := by
  intro fileInfos
  induction fileInfos with
  | nil =>
    intro forest forest' hfold hsub hk hd hf hp
    simp only [List.foldlM_nil, pure, Option.some.injEq] at hfold
    subst hfold
    refine ⟨hk, hd, hf, hp, fun p h => h, ?_⟩
    intro fi hfi
    cases hfi
  | cons fi infos ihl =>
    intro forest forest' hfold hsub hk hd hf hp
    rw [List.foldlM_cons] at hfold
    cases h1 : insertParts fi (jsSplit '/' fi.path) "" forest with
    | none => rw [h1] at hfold; simp at hfold
    | some f1 =>
      rw [h1] at hfold
      simp only [Option.bind_eq_bind, Option.some_bind] at hfold
      obtain ⟨k1, d1, ff1, p1, _, mono1, create1⟩ :=
        insertParts_invariants fi L (hsub fi (by simp))
          (jsSplit '/' fi.path) "" forest f1 h1 hk hd hf hp
      obtain ⟨k2, d2, ff2, p2, mono2, create2⟩ :=
        ihl f1 forest' hfold (fun x hx => hsub x (by simp [hx])) k1 d1 ff1 p1
      refine ⟨k2, d2, ff2, p2, fun p hp' => mono2 p (mono1 p hp'), ?_⟩
      intro fj hfj k hk1
      rcases List.mem_cons.mp hfj with rfl | hfj'
      · exact mono2 _ (create1 k hk1)
      · exact create2 fj hfj' k hk1

/-- Claim C9: in the tree built from the filtered record set (for any name
comparator), (a) every directory node has at least one file descendant,
(b) every file node carries one of the surviving (filter-passing) records —
together: no directory with zero surviving file descendants — and (c) for
every surviving record, a directory node exists at every proper prefix of its
path, so a directory with a surviving descendant is present. -/
theorem getFileTree_filter_spec (cmp : String → String → Int)
    (fileInfos : List FileInfo) (filters : Option FileFilters)
    (tree : List FileTreeNode)
    (hwf : ∀ fi ∈ fileInfos, (jsSplit '/' fi.path).headD "" ≠ "")
    (hb : getFileTree cmp fileInfos filters = some tree) :
    (∀ n ∈ forestNodes tree, n.isFile = false →
      ∃ m ∈ forestNodes n.childList, m.isFile = true) ∧
    (∀ m ∈ forestNodes tree, m.isFile = true →
      ∃ fi ∈ applyFilters fileInfos filters, m.fileInfo = some fi) ∧
    (∀ fi ∈ applyFilters fileInfos filters, ∀ k,
      k + 1 < (jsSplit '/' fi.path).length →
      ∃ n ∈ forestNodes tree, n.isFile = false ∧
        n.path = pathAcc "" ((jsSplit '/' fi.path).take (k + 1))) := by
  unfold getFileTree buildFileTree at hb
  rcases Option.map_eq_some'.mp hb with ⟨raw, hraw, htree⟩
  subst htree
  unfold rawBuild at hraw
  obtain ⟨hk, hd, hf, _, _, hcreate⟩ :=
    rawBuild_invariants (applyFilters fileInfos filters)
      (applyFilters fileInfos filters) [] raw hraw (fun fi h => h)
      kindOk_nil dirsHaveFile_nil (filesFrom_nil _) (.nil _)
  refine ⟨?_, ?_, ?_⟩
  · intro n hn hnf
    rcases (mem_sortForest_iff cmp raw n).mp hn with ⟨m₀, hm₀, rfl⟩
    rw [sortNode_isFile] at hnf
    rcases hd m₀ hm₀ hnf with ⟨m, hm, hmf⟩
    refine ⟨sortNode cmp m, ?_, ?_⟩
    · rw [sortNode_childList]
      exact (mem_sortForest_iff cmp m₀.childList (sortNode cmp m)).mpr
        ⟨m, hm, rfl⟩
    · rw [sortNode_isFile]
      exact hmf
  · intro m hm hmf
    rcases (mem_sortForest_iff cmp raw m).mp hm with ⟨m₀, hm₀, rfl⟩
    rw [sortNode_isFile] at hmf
    rcases hf m₀ hm₀ hmf with ⟨fi, hfi, hinfo⟩
    refine ⟨fi, hfi, ?_⟩
    rw [sortNode_fileInfo]
    exact hinfo
  · intro fi hfi k hk1
    rcases hcreate fi hfi k hk1 with ⟨n, hn, h1, h2⟩
    refine ⟨sortNode cmp n, (mem_sortForest_iff cmp raw _).mpr ⟨n, hn, rfl⟩,
      ?_, ?_⟩
    · rw [sortNode_isFile]; exact h1
    · rw [sortNode_path]; exact h2

/-- A concrete record with a chosen status, for the filtering witness. -/
def exInfoSt (p : String) (st : FileStatus) : FileInfo :=
  ⟨p, st, 10, "", "md", some "h", none⟩

/-- Three records; the filter below keeps only the untranslated ones, which
also removes the `docs/sub` directory entirely. -/
def exInfos9 : List FileInfo :=
  [exInfoSt "docs/a.md" .untranslated,
   exInfoSt "docs/sub/c.md" .outdated,
   exInfoSt "README.md" .untranslated]

/-- Keep only `Untranslated` records. -/
def exFilters9 : Option FileFilters :=
  some ⟨some [.untranslated], none, none, none⟩

/-- The tree of the surviving records. -/
def exTree9 : List FileTreeNode :=
  [.node "docs" "docs" false
      (some [.node "a.md" "docs/a.md" true none
        (some (exInfoSt "docs/a.md" .untranslated))]) none,
   .node "README.md" "README.md" true none
      (some (exInfoSt "README.md" .untranslated))]

unseal List.merge List.mergeSort in
/-- Witness for claim C9 at the concrete filtered build: the surviving tree
keeps `docs` (it still has the surviving `a.md`), drops `docs/sub` wholesale,
and satisfies all three parts of the claim. -/
theorem getFileTree_filter_spec_witness :
    (∀ n ∈ forestNodes exTree9, n.isFile = false →
      ∃ m ∈ forestNodes n.childList, m.isFile = true) ∧
    (∀ m ∈ forestNodes exTree9, m.isFile = true →
      ∃ fi ∈ applyFilters exInfos9 exFilters9, m.fileInfo = some fi) ∧
    (∀ fi ∈ applyFilters exInfos9 exFilters9, ∀ k,
      k + 1 < (jsSplit '/' fi.path).length →
      ∃ n ∈ forestNodes exTree9, n.isFile = false ∧
        n.path = pathAcc "" ((jsSplit '/' fi.path).take (k + 1))) :=
  getFileTree_filter_spec cmpLex exInfos9 exFilters9 exTree9 (by decide)
    (by rfl)
